import Mathlib

/-!
A shallow embedding of the text-wrapping engine of `src/interface/display.py`
(classes `Text`, `_Line`, `_TextWrap`, `InputBox`).

Modelling conventions:
* Python strings are `List Char` (`Str`).
* `pygame` text measurement (`Font.size`) is an abstract deterministic
  function `size : Str → Nat × Nat` (width, height), carried by each text
  object; concrete scenarios use a monospace instance.
* Python object identity (`id(text)`, dict keys, `in` tests on `Text`
  objects, which define no `__eq__`) is modelled by an arena: text objects
  live in a list `arena : List TextObj` and are referred to by index
  (`TextId`).  Mutation of a text object is an update of the arena.
* Python dicts are association lists; assignment keeps the position of an
  existing key (as python dicts do) and appends new keys; iteration is in
  insertion order, as in python 3.7+.
* `collections.deque` is `List` with the left end at the head:
  `popleft` = head/tail, `appendleft` = cons, `append`/`extend` = `++`,
  `extendleft xs` = `xs.reverse ++ ·`.
* Python `int` is `Int`; measured widths and heights are `Nat`.
* Wall-clock times and drag speeds (python floats) are `ℚ`.
-/

namespace Hysteresis

abbrev Str := List Char
abbrev TextId := Nat

/-- The `SPLIT_CHARS_AFTER` (display.py line 34): characters after which a
fragment may be cut. -/
def SPLIT_CHARS_AFTER : List Char := " -.,!?;/\\)>]\x7d+*&^%`".toList

/-- The `SPLIT_CHARS_BEFORE` (display.py line 37): characters before which a
fragment may be cut; `N` is the synthetic whole-fragment-boundary marker. -/
def SPLIT_CHARS_BEFORE : List Char := "(<[\x7b_$#@|~N".toList

/-- The `SPLIT_CHARS_ALL` (display.py line 40). -/
def SPLIT_CHARS_ALL : List Char := SPLIT_CHARS_AFTER ++ SPLIT_CHARS_BEFORE

/-- The `DRAG_DECELERATION` (display.py line 49). -/
def DRAG_DECELERATION : ℚ := 35

/-- The `DRAG_DEADZONE` (display.py line 51). -/
def DRAG_DEADZONE : ℚ := 20

/-- Association-list lookup (python `d[k]` / `k in d`). -/
def alookup {α β : Type} [DecidableEq α] : List (α × β) → α → Option β
  | [], _ => none
  | (k', v) :: rest, k => if k' = k then some v else alookup rest k

/-- Python dict assignment `d[k] = v`: replaces the value in place when the
key exists (python dicts keep the original insertion position), appends a
new binding otherwise. -/
def aset {α β : Type} [DecidableEq α] : List (α × β) → α → β → List (α × β)
  | [], k, v => [(k, v)]
  | (k', v') :: rest, k, v =>
    if k' = k then (k, v) :: rest else (k', v') :: aset rest k v

/-- Python dict deletion `del d[k]`. -/
def aerase {α β : Type} [DecidableEq α] : List (α × β) → α → List (α × β)
  | [], _ => []
  | (k', v') :: rest, k => if k' = k then rest else (k', v') :: aerase rest k

/-- The `Text` class (display.py line 320): only the fields the wrapping
engine reads.  `allText` is `all_text`, `textSegment` is `text_segment`,
`size` is `get_size` (the font metrics closed over the fragment's font),
`newLine` is `new_line`.  Style fields (color, highlight, label) are not
consulted by any wrapped-text operation modelled here. -/
structure TextObj where
  allText : Str
  textSegment : Str
  size : Str → Nat × Nat
  newLine : Bool

/-- Placeholder text object returned for an out-of-range arena index
(python would raise `KeyError`/`IndexError`; all states used in the
theorems below index only allocated ids). -/
def TextObj.default0 : TextObj := ⟨[], [], fun _ => (0, 0), false⟩

/-- A monospace metrics function: every character is `cw` wide and every
string `ch` tall. -/
def monoSize (cw ch : Nat) : Str → Nat × Nat := fun s => (cw * s.length, ch)

/-- The scanning loop of `Text._force_split` (display.py lines 415-425).
Walks the segment left to right; at index `ind` the tentative cut is
`seg[:ind+1] + "-"`.  `best` records `ind - 1` for every index after the
first (the previous index's tentative cut has already passed the width
test, or the loop would have stopped there).  Stops at the first index
whose tentative cut exceeds `remaining`; the boolean of the result is the
degenerate flag `ind == 0 and remaining_width == box_width`, which in the
source zeroes `self.text_segment` before the remainder is read from it. -/
def Text.forceSplitGo (size : Str → Nat × Nat) (seg : Str) (remaining : Int)
    (box : Nat) : Nat → Str → Option Nat → Option Nat × Bool
  | _, [], best => (best, false)
  | ind, _ :: cs, best =>
    let best' := if 0 < ind then some (ind - 1) else best
    let candidate := seg.take (ind + 1) ++ ['-']
    if remaining < ((size candidate).1 : Int) then
      (best', decide (ind = 0 ∧ remaining = (box : Int)))
    else
      Text.forceSplitGo size seg remaining box (ind + 1) cs best'

/-- The `Text._force_split` (display.py lines 397-435).  Returns the pair
`(best_segment, other_segment)`; the caller (`Line.fitText`) also records
that the source mutates `self.text_segment` to the first component.  Note
that in the degenerate branch the source sets `self.text_segment = ""`
before `other_segment = self.text_segment` is evaluated, so the returned
remainder is empty and the fragment's text is dropped. -/
def Text.forceSplit (size : Str → Nat × Nat) (seg : Str) (remaining : Int)
    (box : Nat) : Str × Str :=
  match Text.forceSplitGo size seg remaining box 0 seg none with
  | (some b, _) => (seg.take (b + 1) ++ ['-'], seg.drop (b + 1))
  | (none, zeroed) => if zeroed then ([], []) else ([], seg)

/-- The candidate-collecting scan of `Text.split` (display.py lines
476-491).  At index `ind` holding character `c` the cut point is after `c`
for split-after characters and before `c` otherwise; the index-0
`continue` guard skips non-split-after characters at the start of a fresh
line (`remaining_width == box_width`).  A candidate is recorded (keyed by
its character, later occurrences overwriting earlier ones, as in a python
dict) when the cut's left part fits in `remaining`; the scan stops at the
first checked cut that does not fit. -/
def Text.splitScanGo (size : Str → Nat × Nat) (seg : Str) (remaining : Int)
    (box : Nat) : Nat → Str → List (Char × Str × Str) → List (Char × Str × Str)
  | _, [], acc => acc
  | ind, c :: cs, acc =>
    if c ∉ SPLIT_CHARS_AFTER ∧ ind = 0 ∧ remaining = (box : Int) then
      Text.splitScanGo size seg remaining box (ind + 1) cs acc
    else
      let sInd := if c ∈ SPLIT_CHARS_AFTER then ind + 1 else ind
      let pre := seg.take sInd
      let post := seg.drop sInd
      if ((size pre).1 : Int) ≤ remaining then
        let acc' := if c ∈ SPLIT_CHARS_ALL ∧ c ≠ 'N' then aset acc c (pre, post)
          else acc
        Text.splitScanGo size seg remaining box (ind + 1) cs acc'
      else acc

/-- The `possible_split_points` of `Text.split` after the scan: seeded with the
whole-fragment-boundary candidate `N ↦ ("", segment)` when the fragment
does not start a fresh line (display.py lines 473-474; the source's
`"N" in SPLIT_CHARS_ALL_SET` conjunct is the constant-true membership
test, kept here verbatim). -/
def Text.splitPoints (size : Str → Nat × Nat) (seg : Str) (remaining : Int)
    (box : Nat) : List (Char × Str × Str) :=
  let init := if remaining < (box : Int) ∧ 'N' ∈ SPLIT_CHARS_ALL
    then [('N', ([], seg))] else []
  Text.splitScanGo size seg remaining box 0 seg init

/-- The `Text.split` (display.py lines 437-501).  The source sorts the
candidate dict's keys by their index in `SPLIT_CHARS_ALL` and takes the
first; since every key is a member of `SPLIT_CHARS_ALL` (whose entries are
pairwise distinct) that equals scanning `SPLIT_CHARS_ALL` in order for the
first key present, which is how the choice is written here
(`splitPoints_keys_mem` below justifies that the fallback branch is taken
exactly when the candidate dict is empty, as in the source's
`if possible_split_points:`).  As with `forceSplit`, the source mutates
`self.text_segment` to the first component of the result. -/
def Text.split (size : Str → Nat × Nat) (seg : Str) (remaining : Int)
    (box : Nat) : Str × Str :=
  let pts := Text.splitPoints size seg remaining box
  match SPLIT_CHARS_ALL.find? (fun c => (alookup pts c).isSome) with
  | some c => (alookup pts c).getD ([], [])
  | none => Text.forceSplit size seg remaining box

/-- The `_Line` class (display.py line 530): `textList` is `text_list`
(a deque of text references, here ids), `textSegments` is the
`text_segments` dict keyed by `id(text)`, `newLine` is `new_line`.
`pos` is assigned only at render time and is not modelled. -/
structure Line where
  textList : List TextId
  width : Nat
  height : Nat
  textSegments : List (TextId × Str)
  newLine : Bool
  deriving DecidableEq, Repr

/-- A freshly constructed `_Line()`. -/
def Line.empty : Line := ⟨[], 0, 0, [], false⟩

/-- The `_Line.get_text_segment` (display.py lines 630-636). -/
def Line.getTextSegment (arena : List TextObj) (line : Line) (t : TextId) : Str :=
  match alookup line.textSegments t with
  | some seg => seg
  | none => (arena.getD t TextObj.default0).textSegment

/-- The result of `_Line.fit_text`: the updated arena (text segments are
mutated), the updated line, the updated pending deque (`box_text_list`),
`added_text`, and `following_text_segment` (`()` is `none`; note the
source can produce a pair with an empty-string segment in the
reached-bottom branch, so the pair is kept as written). -/
structure FitResult where
  arena : List TextObj
  line : Line
  pending : List TextId
  added : List TextId
  following : Option (TextId × Str)

/-- The `_Line.fit_text` (display.py lines 547-628).  The loop pops from the
front of the pending deque; every path that pushes a text back onto the
front also leaves the loop, so the recursion is structural in the pending
list.  Matching the source:
* the loop guard re-checks `self.new_line` before each pop;
* a text already present in `self.text_list` (possible only after a
  height-overflow rollback re-queued the line's own content) stops the
  loop, reporting `(id, text.text_segment)`;
* a pending entry of `self.text_segments` is restored into the text's
  `text_segment` before measuring (`set_text_segment`);
* a text that fits whole is appended, accumulating width and max height,
  and closes the line when its `new_line` flag is set;
* otherwise `Text.split` runs against the remaining width, mutating the
  text's segment to the returned left part; a non-empty left part is
  appended and recorded in `text_segments`, a non-empty remainder is
  pushed back and reported, and the line closes. -/
def Line.fitText (boxWidth : Nat) : List TextObj → Line → List TextId →
    List TextId → FitResult
  | arena, line, [], added => ⟨arena, line, [], added, none⟩
  | arena, line, t :: rest, added =>
    if line.newLine then ⟨arena, line, t :: rest, added, none⟩
    else
      let txt := arena.getD t TextObj.default0
      if t ∈ line.textList then
        ⟨arena, line, t :: rest, added, some (t, txt.textSegment)⟩
      else
        let txt := match alookup line.textSegments t with
          | some seg => { txt with textSegment := seg }
          | none => txt
        let arena := arena.set t txt
        let twh := txt.size txt.textSegment
        if line.width + twh.1 ≤ boxWidth then
          let line := { line with
            width := line.width + twh.1
            height := max line.height twh.2
            textList := line.textList ++ [t] }
          if txt.newLine then
            ⟨arena, { line with newLine := true }, rest, added ++ [t], none⟩
          else
            Line.fitText boxWidth arena line rest (added ++ [t])
        else
          let remaining : Int := (boxWidth : Int) - (line.width : Int)
          let segs := Text.split txt.size txt.textSegment remaining boxWidth
          let arena := arena.set t { txt with textSegment := segs.1 }
          let line :=
            if segs.1 ≠ [] then
              let twh' := txt.size segs.1
              { line with
                textSegments := aset line.textSegments t segs.1
                width := line.width + twh'.1
                height := max line.height twh'.2
                textList := line.textList ++ [t] }
            else line
          if segs.2 ≠ [] then
            ⟨arena, line, t :: rest, added ++ [t], some (t, segs.2)⟩
          else
            ⟨arena, line, rest, added ++ [t], none⟩

/-- The `_TextWrap` state (display.py lines 700-730): `wrappedTextList`
and `newTextList` are the two text deques, `lines` the committed lines,
`lineNum` the scroll offset (`line_num`), `remainingSegments` the
carry-over dict, `currentHeight` the running visible-height tally, `pos`
the viewport `[x, y, width, height]`, and the drag fields the coast-scroll
state (`drag_end_time` is folded into the elapsed-time argument of
`coastScroll`; `drag_start_*` only feed `end_drag`, which is not claimed).
The arena holds every text object ever added to the box. -/
structure WrapState where
  arena : List TextObj
  wrappedTextList : List TextId
  newTextList : List TextId
  currentHeight : Int
  posX : Int := 0
  posY : Int := 0
  posW : Nat
  posH : Nat
  lines : List Line
  lineNum : Int
  remainingSegments : List (TextId × Str)
  dragSpeed : ℚ := 0
  draggedLines : Int := 0
  dragsToGo : ℚ := 0

/-- A newly constructed `_TextWrap()`. -/
def WrapState.init (posW posH : Nat) : WrapState :=
  { arena := [], wrappedTextList := [], newTextList := [], currentHeight := 0
    posW := posW, posH := posH, lines := [], lineNum := 0
    remainingSegments := [] }

/-- The `_TextWrap.add_text` (display.py lines 954-958): appends the new text
objects to `new_text_list`, allocating fresh arena ids for them. -/
def WrapState.addText (s : WrapState) (ts : List TextObj) : WrapState :=
  { s with
    arena := s.arena ++ ts
    newTextList := s.newTextList ++ List.range' s.arena.length ts.length }

/-- The `Text.reset_text` on the arena entry `t`. -/
def arenaResetText (arena : List TextObj) (t : TextId) : List TextObj :=
  match arena.get? t with
  | some txt => arena.set t { txt with textSegment := txt.allText }
  | none => arena

/-- The inner loop of `_TextWrap._purge_segments` (display.py lines
836-848): the source pops from the right of the deque, keeps the first
occurrence of each id seen (i.e. the rightmost occurrence in the original
order), optionally resetting the text's segment, and rebuilds the deque in
the original order.  Here the reversed deque is consumed left to right and
`checked` is built by consing, which reproduces the original order. -/
def purgeListGo (reset : Bool) : List TextId → List TextId → List TextId →
    List TextObj → List TextId × List TextId × List TextObj
  | [], checked, used, arena => (checked, used, arena)
  | t :: rest, checked, used, arena =>
    if t ∈ used then purgeListGo reset rest checked used arena
    else purgeListGo reset rest (t :: checked) (t :: used)
      (if reset then arenaResetText arena t else arena)

/-- The `_purge_segments_from_list` applied to one deque, threading the shared
`used_text_ids` set. -/
def purgeList (reset : Bool) (arena : List TextObj) (used : List TextId)
    (l : List TextId) : List TextId × List TextId × List TextObj :=
  purgeListGo reset l.reverse [] used arena

/-- The `_TextWrap._purge_segments(lists, reset)` over an explicit list of
deques (display.py lines 833-857), sharing one `used_text_ids` set
across all of them. -/
def purgeSegmentsLists (reset : Bool) (arena : List TextObj)
    (lists : List (List TextId)) : List (List TextId) × List TextObj :=
  let r := lists.foldl
    (fun (acc : List (List TextId) × List TextId × List TextObj) l =>
      let pl := purgeList reset acc.2.2 acc.2.1 l
      (acc.1 ++ [pl.1], pl.2.1, pl.2.2))
    ([], [], arena)
  (r.1, r.2.2)

/-- The `_purge_segments` on a single deque (the `[self.new_text_list]` /
`[self.wrapped_text_list]` call sites): a fresh `used_text_ids` set. -/
def purgeOne (reset : Bool) (arena : List TextObj) (l : List TextId) :
    List TextId × List TextObj :=
  ((purgeList reset arena [] l).1, (purgeList reset arena [] l).2.2)

/-- The `_TextWrap._next_line` (display.py lines 732-739): reuse (pop) the
last committed line, first removing its height from the running tally,
unless `force_new` is set or no line exists. -/
def WrapState.nextLine (s : WrapState) (forceNew : Bool) : WrapState × Line :=
  match s.lines.getLast? with
  | some line =>
    if forceNew then (s, Line.empty)
    else
      ({ s with
          lines := s.lines.dropLast
          currentHeight := s.currentHeight - (line.height : Int) }, line)
  | none => (s, Line.empty)

/-- Carry-over re-injection at the top of the `_wrap_new_lines` loop
(display.py lines 772-776): every remaining segment whose id the line's
`text_segments` does not yet hold is moved into it, unless the line is
closed by a forced newline.  The source iterates a snapshot
(`tuple(...items())`) while deleting, which the fold over the original
list reproduces. -/
def reinjectRemainingGo : List (TextId × Str) → Line → List (TextId × Str) →
    Line × List (TextId × Str)
  | [], line, rem => (line, rem)
  | kv :: todo, line, rem =>
    if (alookup line.textSegments kv.1).isNone ∧ ¬ line.newLine then
      reinjectRemainingGo todo
        { line with textSegments := aset line.textSegments kv.1 kv.2 }
        (aerase rem kv.1)
    else reinjectRemainingGo todo line rem

def reinjectRemaining (line : Line) (rem : List (TextId × Str)) :
    Line × List (TextId × Str) :=
  reinjectRemainingGo rem line rem

/-- Post-`fit_text` reconciliation (display.py lines 783-786): segments
recorded on the line for texts that did not end up in the line's
`text_list` are moved back into `remaining_segments`. -/
def reconcileSegmentsGo : List (TextId × Str) → Line → List (TextId × Str) →
    Line × List (TextId × Str)
  | [], line, rem => (line, rem)
  | kv :: todo, line, rem =>
    if kv.1 ∉ line.textList then
      reconcileSegmentsGo todo
        { line with textSegments := aerase line.textSegments kv.1 }
        (aset rem kv.1 kv.2)
    else reconcileSegmentsGo todo line rem

def reconcileSegments (line : Line) (rem : List (TextId × Str)) :
    Line × List (TextId × Str) :=
  reconcileSegmentsGo line.textSegments line rem

/-- The height-overflow rollback's segment salvage (display.py lines
790-810): walks the line's texts in order, combining each one's recorded
segment with the pending `new_text_segment` when the ids match, storing
every non-empty result into `remaining_segments`, and finally storing a
still-unconsumed `new_text_segment`.  (The source initialises `text_id`
to `id(line[0])` before the walk; the value is never read before being
overwritten, and the walk is empty only when the line is empty, in which
case only the final store runs.) -/
def rollbackSegmentsGo (line : Line) : List TextId → Option (TextId × Str) →
    List (TextId × Str) → List (TextId × Str) × Option (TextId × Str)
  | [], nts, rem => (rem, nts)
  | t :: todo, nts, rem =>
    let seg0 : Str := (alookup line.textSegments t).getD []
    let segNts : Str × Option (TextId × Str) :=
      match nts with
      | some is => if t = is.1 then (seg0 ++ is.2, none) else (seg0, nts)
      | none => (seg0, none)
    let rem2 := if segNts.1 ≠ [] then aset rem t segNts.1 else rem
    rollbackSegmentsGo line todo segNts.2 rem2

def rollbackSegments (line : Line) (nts : Option (TextId × Str))
    (rem : List (TextId × Str)) : List (TextId × Str) :=
  let r := rollbackSegmentsGo line line.textList nts rem
  match r.2 with
  | some is => aset r.1 is.1 is.2
  | none => r.1

/-- The `while` loop of `_TextWrap._wrap_new_lines` (display.py lines
769-830), written with explicit fuel (the source's loop has no syntactic
termination measure; every theorem below either holds for all fuel or is
evaluated on a run that finishes well within the supplied fuel).
Each iteration: re-inject carry-over, `fit_text`, reconcile unused
segments, then either roll the line back onto the pending deque when its
height would overflow the box (and stop), or commit it and continue with
a fresh line seeded with the follow-on segment. -/
def WrapState.wrapLoop (all_ : Bool) (boxWidth : Nat) :
    Nat → WrapState → Line → Option (TextId × Str) → Nat → WrapState × Nat
  | 0, s, _, _, added => (s, added)
  | fuel + 1, s, line, _, added =>
    if s.newTextList = [] ∧ line.textSegments = [] then (s, added)
    else
      let rj := reinjectRemaining line s.remainingSegments
      let s := { s with remainingSegments := rj.2 }
      let fr := Line.fitText boxWidth s.arena rj.1 s.newTextList []
      let s := { s with arena := fr.arena, newTextList := fr.pending }
      let nts := fr.following
      let rc := reconcileSegments fr.line s.remainingSegments
      let line := rc.1
      let s := { s with remainingSegments := rc.2 }
      if ¬ all_ ∧ (s.posH : Int) < s.currentHeight + (line.height : Int) then
        let s :=
          if nts.isSome ∨ line.textSegments ≠ [] then
            { s with remainingSegments := rollbackSegments line nts s.remainingSegments }
          else s
        let s := { s with newTextList := line.textList ++ s.newTextList }
        let pg := purgeOne false s.arena s.newTextList
        ({ s with newTextList := pg.1, arena := pg.2 }, added)
      else
        let pg := purgeOne false s.arena (s.wrappedTextList ++ fr.added)
        let s := { s with
          arena := pg.2
          wrappedTextList := pg.1
          lines := s.lines ++ [line] }
        let added := added + 1
        let s :=
          if s.lineNum ≤ (s.lines.length : Int) then
            { s with currentHeight := s.currentHeight + (line.height : Int) }
          else s
        let line := Line.empty
        let line :=
          match nts with
          | some (i, seg) =>
            if (alookup s.remainingSegments i).isNone then
              { line with textSegments := [(i, seg)] }
            else line
          | none => line
        WrapState.wrapLoop all_ boxWidth fuel s line nts added

/-- The `_TextWrap._wrap_new_lines` (display.py lines 741-831): runs the wrap
loop only when pending text remains and (unless `all_`) the committed
height is still below the box height; the first line is popped from the
committed list (`_next_line`).  Returns the updated state and
`lines_added`. -/
def WrapState.wrapNewLines (s : WrapState) (all_ forceNewLine : Bool)
    (fuel : Nat) : WrapState × Nat :=
  if s.newTextList ≠ [] ∧ (all_ ∨ s.currentHeight < (s.posH : Int)) then
    let boxWidth := s.posW
    let nl := s.nextLine forceNewLine
    WrapState.wrapLoop all_ boxWidth fuel nl.1 nl.2 none 0
  else (s, 0)

/-- The `_TextWrap.wrap_more` with default arguments, i.e. the plain wrap
operation `_wrap_new_lines()` as invoked from `render` and the cursor
paths. -/
def WrapState.wrap (s : WrapState) (fuel : Nat) : WrapState × Nat :=
  s.wrapNewLines false false fuel

/-- The `_TextWrap.calculate_height` (display.py lines 997-1001): sum of the
heights of the lines from the scroll offset on.  (`line_num` is
non-negative whenever the source calls this; `toNat` is the identity
there.) -/
def WrapState.calculateHeight (s : WrapState) : WrapState :=
  { s with currentHeight :=
      (((s.lines.drop s.lineNum.toNat).map Line.height).foldl (· + ·) 0 : Nat) }

/-- The `_TextWrap.scroll_lines` (display.py lines 1003-1012) with the
recursive self-call given explicit fuel; `scrollLinesGo_fuel` below shows
fuel 2 is exact (the nested call never recurses again). -/
def WrapState.scrollLinesGo : Nat → WrapState → Int → WrapState
  | 0, s, _ => s
  | fuel + 1, s, n =>
    let ln := max 0 (s.lineNum + n)
    let s := { s with lineNum := ln }
    let toScroll : Int := (s.lines.length : Int) - ln - 1
    let s :=
      if toScroll < 0 ∧ s.lines ≠ [] then WrapState.scrollLinesGo fuel s toScroll
      else s
    s.calculateHeight

/-- The `_TextWrap.scroll_lines(num_lines)`. -/
def WrapState.scrollLines (s : WrapState) (n : Int) : WrapState :=
  WrapState.scrollLinesGo 2 s n

/-- The `_TextWrap._stop_coast` (display.py lines 1014-1019).  (`drag_end_time
= None` is subsumed by passing elapsed time to `coastScroll` directly.) -/
def WrapState.stopCoast (s : WrapState) : WrapState :=
  { s with dragSpeed := 0, draggedLines := 0, dragsToGo := 0 }

/-- Python `int(x)` on a float: truncation toward zero. -/
def pyTrunc (x : ℚ) : Int := if 0 ≤ x then ⌊x⌋ else ⌈x⌉

/-- Python float modulo `x % m` (sign follows the divisor):
`x - m * floor(x / m)`.  (`m = 0` would raise in python; the only call
site has `|x| > 1` so `m = int(x) ≠ 0`.) -/
def pyFloatMod (x : ℚ) (m : Int) : ℚ := x - (m : ℚ) * ⌊x / (m : ℚ)⌋

/-- The `_TextWrap.coast_scroll` (display.py lines 1021-1043), with the
elapsed time `current_time - self.drag_end_time` passed as `dt`.  While
coasting (non-zero speed that is above the deadzone or has fractional
carry): integrate speed over `dt` into `drags_to_go`, decay the speed
linearly by `DRAG_DECELERATION * dt` clamping at zero, and once the
accumulated magnitude exceeds one, scroll by the truncated whole-line
part, keeping the python-modulo remainder.  Otherwise clear the carry. -/
def WrapState.coastScroll (s : WrapState) (dt : ℚ) : WrapState :=
  if s.dragSpeed ≠ 0 ∧ (DRAG_DEADZONE < |s.dragSpeed| ∨ s.dragsToGo ≠ 0) then
    let s := { s with dragsToGo := s.dragsToGo + s.dragSpeed * dt }
    let s :=
      if s.dragSpeed < 0 then
        { s with dragSpeed := min 0 (s.dragSpeed + DRAG_DECELERATION * dt) }
      else if 0 < s.dragSpeed then
        { s with dragSpeed := max 0 (s.dragSpeed - DRAG_DECELERATION * dt) }
      else s
    if 1 < |s.dragsToGo| then
      let drag := pyTrunc s.dragsToGo
      let s := s.scrollLines drag
      { s with dragsToGo := pyFloatMod s.dragsToGo drag }
    else s
  else { s with dragsToGo := 0 }

/-- The `_TextWrap._find_segment_index` (display.py lines 859-880): walks the
committed lines containing the text, counting within each such line's
segment the characters that match `all_text` at the running position
(characters that do not match, e.g. synthetic hyphens, are skipped).
An out-of-range `all_text[index + sub_index]` access (which would raise
`IndexError` in the source and is not exercised by any claim) is treated
as a mismatch. -/
def WrapState.findSegmentIndex (s : WrapState) (t : TextId) : Nat :=
  s.lines.foldl
    (fun index line =>
      if t ∈ line.textList then
        let txt := s.arena.getD t TextObj.default0
        let segment := Line.getTextSegment s.arena line t
        let subIndex := segment.foldl
          (fun sub c =>
            if txt.allText.length ≤ sub then sub
            else
              match txt.allText.get? (index + sub) with
              | some c2 => if c2 = c then sub + 1 else sub
              | none => sub)
          0
        index + subIndex
      else index)
    0

/-- The `_TextWrap.mark_wrap(start_line)` (display.py lines 882-942),
transcribed statement by statement.  The source's `old_text =
self.wrapped_text_list` fallback aliases the deque, so the subsequent
in-place `reverse` and the default `_purge_segments()` act on
`wrapped_text_list` itself before `extendleft`; the `aliasCase` flag
reproduces that.  (`first_dirty_line[0]` on an empty purged line would
raise `IndexError` in the source; that unreachable-in-the-claims case is
modelled as a no-op.) -/
def WrapState.markWrap (s : WrapState) (startLine0 : Nat) : WrapState :=
  let startLine := if 0 < startLine0 then startLine0 - 1 else startLine0
  let s := s.stopCoast
  let (keptLines, purgedLines, purgedListsQ) :=
    if startLine = 0 then
      (([] : List Line), ([] : List Line), (none : Option (List (List TextId))))
    else
      (s.lines.take startLine, s.lines.drop startLine,
        some ((s.lines.drop startLine).map Line.textList))
  let s := { s with lines := keptLines }
  let s := { s with lineNum := max 0 (min ((s.lines.length : Int) - 1) s.lineNum) }
  let s := s.calculateHeight
  let s := { s with remainingSegments := [] }
  let s :=
    match s.lines.getLast?, purgedLines.head? with
    | some lastKept, some firstDirty =>
      match firstDirty.textList.head? with
      | some ft =>
        if ft ∈ lastKept.textList then
          let endIndex := s.findSegmentIndex ft
          let rsg := (s.arena.getD ft TextObj.default0).allText.drop endIndex
          { s with remainingSegments := aset s.remainingSegments ft rsg }
        else s
      | none => s
    | _, _ => s
  let scan := s.wrappedTextList.foldl
    (fun (acc : Option Nat × List TextId × Nat) t =>
      let (startInd, old, idx) := acc
      match startInd with
      | some _ => (startInd, old ++ [t], idx + 1)
      | none =>
        if purgedLines.any (fun L => t ∈ L.textList) then
          (some idx, old ++ [t], idx + 1)
        else (none, old, idx + 1))
    ((none : Option Nat), ([] : List TextId), 0)
  let startInd := scan.1
  let oldText := scan.2.1
  let aliasCase := oldText = []
  let oldTextRev := (if aliasCase then s.wrappedTextList else oldText).reverse
  let s := if aliasCase then { s with wrappedTextList := oldTextRev } else s
  let s :=
    match purgedListsQ with
    | some pls =>
      let (_, arena) := purgeSegmentsLists true s.arena pls
      { s with arena := arena }
    | none =>
      let (ls, arena) :=
        purgeSegmentsLists true s.arena [s.wrappedTextList, s.newTextList]
      { s with
        arena := arena
        wrappedTextList := ls.headD []
        newTextList := ls.getD 1 [] }
  let finalOld := if aliasCase then s.wrappedTextList else oldTextRev
  let s := { s with newTextList := finalOld.reverse ++ s.newTextList }
  let s :=
    match startInd with
    | some k => { s with wrappedTextList := s.wrappedTextList.take k }
    | none => { s with wrappedTextList := [] }
  let (ls, arena) :=
    purgeSegmentsLists true s.arena [s.wrappedTextList, s.newTextList]
  { s with
    arena := arena
    wrappedTextList := ls.headD []
    newTextList := ls.getD 1 [] }

/-- The `_TextWrap.get_box_string` (display.py lines 944-952): the committed
lines' displayed segments in order, then the pending texts' full text. -/
def WrapState.boxString (s : WrapState) : Str :=
  (s.lines.map
    (fun L => (L.textList.map (fun t => Line.getTextSegment s.arena L t)).flatten)).flatten
  ++ (s.newTextList.map (fun t => (s.arena.getD t TextObj.default0).allText)).flatten

/-- The full text of every fragment ever appended to the box, in order
(the arena only ever grows under the operations modelled here). -/
def WrapState.appendedString (s : WrapState) : Str :=
  (s.arena.map TextObj.allText).flatten

/-- The `_TextWrap.clear_all_text` (display.py lines 1085-1093): clears the
committed lines, the height tally and both text deques, then `_rewrap()`
invokes `mark_wrap()` (start line 0) on this box. -/
def WrapState.clearAllText (s : WrapState) : WrapState :=
  let s := { s with
    lines := ([] : List Line)
    currentHeight := 0
    wrappedTextList := ([] : List TextId)
    newTextList := ([] : List TextId) }
  s.markWrap 0

/-- The `InputBox._bind_cursor` (display.py lines 1395-1399): clamp the cursor
index below by 0 and above by the length of the box string. -/
def InputBox.bindCursor (s : WrapState) (cursorIndex : Int) : Int :=
  min ((s.boxString.length : Int)) (max 0 cursorIndex)

/-! ### Declarative description of the natural-split scan

The predicates below restate, in the claim's vocabulary, which indices of
a segment are natural split candidates; the theorems for C3 relate the
implementation's scan to them. -/

/-- The character of `seg` at index `i` (the scan only consults indices
below `seg.length`). -/
def segChar (seg : Str) (i : Nat) : Char := seg.getD i ' '

/-- The cut position belonging to index `i`: after a split-after
character, before any other. -/
def splitCutIndex (seg : Str) (i : Nat) : Nat :=
  if segChar seg i ∈ SPLIT_CHARS_AFTER then i + 1 else i

/-- Index `i` is skipped by the scan's index-0 guard (`continue` for a
non-split-after character at the start of a fresh line). -/
def scanSkips (seg : Str) (remaining : Int) (box : Nat) (i : Nat) : Prop :=
  segChar seg i ∉ SPLIT_CHARS_AFTER ∧ i = 0 ∧ remaining = (box : Int)

/-- The scan stops at index `i`: the index is not skipped and its cut's
left part exceeds the remaining width. -/
def scanBreaks (size : Str → Nat × Nat) (seg : Str) (remaining : Int)
    (box : Nat) (i : Nat) : Prop :=
  ¬ scanSkips seg remaining box i ∧
    remaining < ((size (seg.take (splitCutIndex seg i))).1 : Int)

/-- The scan reaches index `i` (no earlier index stopped it). -/
def scanReaches (size : Str → Nat × Nat) (seg : Str) (remaining : Int)
    (box : Nat) (i : Nat) : Prop :=
  ∀ j < i, ¬ scanBreaks size seg remaining box j

/-- Index `i` of the segment is a natural split candidate: the scan
reaches it un-skipped, its cut's left part fits the remaining width, and
its character is a designated split character (the literal character `N`
is excluded, as in the source's `char != "N"` test). -/
def isNatCandidate (size : Str → Nat × Nat) (seg : Str) (remaining : Int)
    (box : Nat) (i : Nat) : Prop :=
  i < seg.length ∧ scanReaches size seg remaining box i ∧
    ¬ scanSkips seg remaining box i ∧
    ((size (seg.take (splitCutIndex seg i))).1 : Int) ≤ remaining ∧
    segChar seg i ∈ SPLIT_CHARS_ALL ∧ segChar seg i ≠ 'N'

instance (seg : Str) (remaining : Int) (box : Nat) (i : Nat) :
    Decidable (scanSkips seg remaining box i) := by
  unfold scanSkips; infer_instance

instance (size : Str → Nat × Nat) (seg : Str) (remaining : Int) (box : Nat)
    (i : Nat) : Decidable (scanBreaks size seg remaining box i) := by
  unfold scanBreaks; infer_instance

instance (size : Str → Nat × Nat) (seg : Str) (remaining : Int) (box : Nat)
    (i : Nat) : Decidable (scanReaches size seg remaining box i) := by
  unfold scanReaches; infer_instance

instance (size : Str → Nat × Nat) (seg : Str) (remaining : Int) (box : Nat)
    (i : Nat) : Decidable (isNatCandidate size seg remaining box i) := by
  unfold isNatCandidate; infer_instance

/-- The guard of `coast_scroll` (display.py lines 1023-1025): a non-zero
drag speed that is either above the deadzone or still has lines to go. -/
def coastActive (s : WrapState) : Prop :=
  s.dragSpeed ≠ 0 ∧ (DRAG_DEADZONE < |s.dragSpeed| ∨ s.dragsToGo ≠ 0)

instance (s : WrapState) : Decidable (coastActive s) := by
  unfold coastActive; infer_instance

/-! ### Concrete states used by counterexamples, failing inputs and
witnesses -/

/-- A fragment `"ab"` in a font two units per character (so `"a-"`
measures 4): wider than a one-unit box even as a single character plus
hyphen. -/
def degenerateText : TextObj := ⟨"ab".toList, "ab".toList, monoSize 2 1, false⟩

/-- A fresh box of width 1 and height 10 holding the pending fragment
`degenerateText`: the failing input for the forced-split data-loss bug. -/
def degenerateState : WrapState := (WrapState.init 1 10).addText [degenerateText]

/-- Fragment `"x"`, one unit per character, height 1. -/
def txA : TextObj := ⟨"x".toList, "x".toList, monoSize 1 1, false⟩

/-- Fragment `"cd"`, one unit per character, height 1. -/
def txB : TextObj := ⟨"cd".toList, "cd".toList, monoSize 1 1, false⟩

/-- Fragment `"eee"`, one unit per character but four units tall. -/
def txC : TextObj := ⟨"eee".toList, "eee".toList, fun s => (s.length, 4), false⟩

/-- A committed line holding fragment 0 (`txA`). -/
def lineA : Line := ⟨[0], 1, 1, [], false⟩

/-- A committed line holding fragment 1 (`txB`). -/
def lineB : Line := ⟨[1], 2, 1, [], false⟩

/-- A wrap state with two committed lines, the first of which still has
room, scrolled to line 1, with the tall fragment `txC` pending: the
double-wrap counterexample state for C7. -/
def doubleWrapState : WrapState := {
  arena := [txA, txB, txC]
  wrappedTextList := [0, 1]
  newTextList := [2]
  currentHeight := 1
  posW := 10
  posH := 3
  lines := [lineA, lineB]
  lineNum := 1
  remainingSegments := [] }

/-- A wrap state with one committed line (for the C5 witness). -/
def oneLineState : WrapState :=
  { WrapState.init 4 4 with lines := [Line.empty] }

/-- A coasting state: drag speed 30 (above the deadzone), no carry. -/
def coastingState : WrapState := { WrapState.init 5 5 with dragSpeed := 30 }

/-! ## Theorems -/

/-- The `calculate_height` touches only `current_height`. -/
theorem calculateHeight_lineNum (s : WrapState) :
    (s.calculateHeight).lineNum = s.lineNum := rfl

theorem calculateHeight_lines (s : WrapState) :
    (s.calculateHeight).lines = s.lines := rfl

/-- The `scroll_lines` never changes the committed lines, for any fuel. -/
theorem scrollLinesGo_lines : ∀ (fuel : Nat) (s : WrapState) (n : Int),
    (WrapState.scrollLinesGo fuel s n).lines = s.lines := by
  intro fuel
  induction fuel with
  | zero => intro s n; rfl
  | succ k ih =>
    intro s n
    simp only [WrapState.scrollLinesGo]
    rw [calculateHeight_lines]
    split
    · rw [ih]
    · rfl

/-- The `scroll_lines` never changes the committed lines. -/
theorem scrollLines_lines (s : WrapState) (n : Int) :
    (s.scrollLines n).lines = s.lines :=
  scrollLinesGo_lines 2 s n

/-- A single `scroll_lines` call on a state with at least one committed
line lands in `[0, len - 1]`. -/
theorem scrollLines_lineNum_bound (s : WrapState) (h : s.lines ≠ []) (n : Int) :
    0 ≤ (s.scrollLines n).lineNum ∧
      (s.scrollLines n).lineNum ≤ (s.lines.length : Int) - 1 := by
  have hlen : 0 < s.lines.length := List.length_pos.mpr h
  simp only [WrapState.scrollLines, WrapState.scrollLinesGo, calculateHeight_lineNum]
  split
  · simp only [calculateHeight_lineNum]
    split <;>
      (simp only [WrapState.scrollLinesGo]; try dsimp only) <;>
      constructor <;> omega
  · rename_i hc
    rw [not_and_or] at hc
    rcases hc with hc | hc
    · try dsimp only
      constructor <;> omega
    · exact absurd h (by simpa using hc)

/-- Folding a sequence of `scroll_lines` calls keeps the offset in range
once it is in range, and keeps the committed lines unchanged. -/
theorem scrollSeq_bound (ns : List Int) : ∀ s : WrapState, s.lines ≠ [] →
    0 ≤ s.lineNum → s.lineNum ≤ (s.lines.length : Int) - 1 →
    (ns.foldl WrapState.scrollLines s).lines = s.lines ∧
    0 ≤ (ns.foldl WrapState.scrollLines s).lineNum ∧
    (ns.foldl WrapState.scrollLines s).lineNum ≤ (s.lines.length : Int) - 1 := by
  induction ns with
  | nil => intro s h h0 h1; exact ⟨rfl, h0, h1⟩
  | cons n rest ih =>
    intro s h h0 h1
    have hl := scrollLines_lines s n
    have hb := scrollLines_lineNum_bound s h n
    have hne : (s.scrollLines n).lines ≠ [] := by rw [hl]; exact h
    have hrec := ih (s.scrollLines n) hne hb.1 (by rw [hl]; exact hb.2)
    rw [List.foldl_cons]
    refine ⟨by rw [hrec.1, hl], hrec.2.1, ?_⟩
    have := hrec.2.2
    rwa [hl] at this

/-- C5, counterexample: with zero committed lines the source's
`scroll_lines` applies only the lower clamp (the recursive upper clamp is
guarded by `and self.lines`), so from a fresh box `scroll_lines(5)`
leaves the offset at 5, outside `[0, max(0, line_count - 1)] = [0, 0]`. -/
theorem C5_counterexample :
    ((WrapState.init 5 5).scrollLines 5).lineNum = 5 ∧
    max 0 ((((WrapState.init 5 5).scrollLines 5).lines.length : Int) - 1) = 0 := by
  decide

/-- C5, amended: when at least one line is committed, every
`scroll_lines` call (and hence every non-empty sequence of such calls,
the committed lines being untouched) leaves the scroll offset within
`[0, line_count - 1]`; with zero committed lines only the lower bound 0
is enforced. -/
theorem C5_scroll_clamp (s : WrapState) (h : s.lines ≠ []) :
    (∀ n : Int,
      (s.scrollLines n).lines = s.lines ∧
      0 ≤ (s.scrollLines n).lineNum ∧
      (s.scrollLines n).lineNum ≤ (s.lines.length : Int) - 1) ∧
    (∀ ns : List Int, ns ≠ [] →
      0 ≤ (ns.foldl WrapState.scrollLines s).lineNum ∧
      (ns.foldl WrapState.scrollLines s).lineNum ≤ (s.lines.length : Int) - 1) := by
  constructor
  · intro n
    exact ⟨scrollLines_lines s n, (scrollLines_lineNum_bound s h n).1,
      (scrollLines_lineNum_bound s h n).2⟩
  · intro ns hns
    match ns with
    | [] => exact absurd rfl hns
    | n :: rest =>
      rw [List.foldl_cons]
      have hl := scrollLines_lines s n
      have hb := scrollLines_lineNum_bound s h n
      have hne : (s.scrollLines n).lines ≠ [] := by rw [hl]; exact h
      have hrec := scrollSeq_bound rest (s.scrollLines n) hne hb.1
        (by rw [hl]; exact hb.2)
      refine ⟨hrec.2.1, ?_⟩
      have := hrec.2.2
      rwa [hl] at this

/-- Witness for `C5_scroll_clamp` at a concrete one-line state. -/
theorem C5_scroll_clamp_witness :
    0 ≤ (([3, -7, 2] : List Int).foldl WrapState.scrollLines oneLineState).lineNum ∧
    (([3, -7, 2] : List Int).foldl WrapState.scrollLines oneLineState).lineNum ≤
      ((oneLineState.lines.length : Int) - 1) :=
  (C5_scroll_clamp oneLineState (by decide)).2 [3, -7, 2] (by decide)

/-- C6: `clear_all_text` (which ends by rewrapping, i.e. `mark_wrap(0)`,
this box) empties the committed lines, the pending list, the wrapped
list and the carry-over map, and resets the scroll offset to 0. -/
theorem C6_clear_all_text (s : WrapState) :
    (s.clearAllText).lines = [] ∧ (s.clearAllText).newTextList = [] ∧
    (s.clearAllText).remainingSegments = [] ∧ (s.clearAllText).lineNum = 0 ∧
    (s.clearAllText).wrappedTextList = [] := by
  unfold WrapState.clearAllText WrapState.markWrap
  simp [WrapState.stopCoast, WrapState.calculateHeight, purgeSegmentsLists,
    purgeList, purgeListGo]

/-- C8: `_bind_cursor` clamps any integer cursor index into
`[0, total_length]` (the length of `get_box_string()`), returning either
the index itself or one of the two bounds; no fault is raised (the
operation is total). -/
theorem C8_bind_cursor_clamped (s : WrapState) (i : Int) :
    0 ≤ InputBox.bindCursor s i ∧
    InputBox.bindCursor s i ≤ ((s.boxString).length : Int) ∧
    (InputBox.bindCursor s i = i ∨ InputBox.bindCursor s i = 0 ∨
      InputBox.bindCursor s i = ((s.boxString).length : Int)) := by
  unfold InputBox.bindCursor
  omega

/-- C4 (code bug): on the degenerate input — fragment `"ab"` at two
units per character against a one-unit box with the whole line available
(`remaining_width == box_width`) — `_force_split` zeroes `text_segment`
before reading the remainder from it, so it returns `("", "")` and the
fragment's text is dropped, instead of the claimed (and spec-intended)
`("", "ab")` which would defer the fragment to the next line. -/
theorem C4_forced_split_drops_remainder :
    Text.forceSplit (monoSize 2 1) ("ab".toList) 1 1 = ([], []) ∧
    Text.split (monoSize 2 1) ("ab".toList) 1 1 = ([], []) := by decide

/-- C1 (code bug): wrapping the pending fragment `"ab"` (two units per
character) in a box of width 1 commits one empty line and drops the
fragment's text: `get_box_string()` returns `""` although the
concatenation of all appended fragments is `"ab"`, violating the
round-trip invariant (root cause: the `_force_split` degenerate branch
returns an empty remainder, see C4). -/
theorem C1_roundtrip_violated :
    degenerateState.appendedString = "ab".toList ∧
    ((degenerateState.wrap 16).1).appendedString = "ab".toList ∧
    ((degenerateState.wrap 16).1).boxString = [] ∧
    ((degenerateState.wrap 16).1).newTextList = [] := by decide

/-- C7, counterexample: from `doubleWrapState` (whose last committed line
still has room and whose pending fragment is taller than the remaining
box height) one wrap call rolls the popped line back and commits nothing,
while an immediately following call pops and refills the *other*
committed line — so wrapping twice commits different lines than wrapping
once. -/
theorem C7_counterexample :
    (((doubleWrapState.wrap 16).1.wrap 16).1).lines ≠
      ((doubleWrapState.wrap 16).1).lines := by decide

/-- A wrap call with an empty pending list returns the state unchanged
with zero lines added (the entry guard of `_wrap_new_lines` fails). -/
theorem wrap_pending_empty (s : WrapState) (fuel : Nat)
    (h : s.newTextList = []) : s.wrap fuel = (s, 0) := by
  unfold WrapState.wrap WrapState.wrapNewLines
  simp [h]

/-- C7, amended: a wrap call with an empty pending list (and necessarily
unchanged viewport) is a complete no-op reporting zero lines added; and
whenever a wrap call leaves the pending list empty, an immediately
following call leaves the committed lines unchanged and reports zero. -/
theorem C7_wrap_noop (s : WrapState) (fuel fuel2 : Nat) :
    (s.newTextList = [] → s.wrap fuel = (s, 0)) ∧
    ((s.wrap fuel).1.newTextList = [] →
      ((s.wrap fuel).1.wrap fuel2).1.lines = (s.wrap fuel).1.lines ∧
      ((s.wrap fuel).1.wrap fuel2).2 = 0) := by
  refine ⟨fun h => wrap_pending_empty s fuel h, fun h => ?_⟩
  rw [wrap_pending_empty ((s.wrap fuel).1) fuel2 h]
  exact ⟨rfl, rfl⟩

/-- Witness for `C7_wrap_noop` on a state whose wrap empties the pending
list. -/
theorem C7_wrap_noop_witness :
    ((WrapState.init 3 3).wrap 5 = (WrapState.init 3 3, 0)) ∧
    (((degenerateState.wrap 16).1.wrap 16).1.lines =
      (degenerateState.wrap 16).1.lines) :=
  ⟨(C7_wrap_noop (WrapState.init 3 3) 5 5).1 rfl,
    ((C7_wrap_noop degenerateState 16 16).2 (by decide)).1⟩

/-- C10, counterexample: `Text.split` on the non-empty segment `"cd"`
(two units per character, one-unit box, fresh line) returns `("", "")`:
every character of the original segment is dropped, contradicting the
claim's universal no-loss clause. -/
theorem C10_counterexample :
    Text.split (monoSize 2 1) ("cd".toList) 1 1 = ([], []) ∧
    ("cd".toList ≠ []) := by decide

/-! ### Association-list lemmas -/

theorem alookup_aset {α β : Type} [DecidableEq α] (m : List (α × β))
    (k k' : α) (v : β) :
    alookup (aset m k v) k' = if k = k' then some v else alookup m k' := by
  induction m with
  | nil => simp [aset, alookup]
  | cons kv rest ih =>
    obtain ⟨k0, v0⟩ := kv
    by_cases h0 : k0 = k
    · subst h0
      by_cases h1 : k0 = k' <;> simp [aset, alookup, h1]
    · by_cases h1 : k0 = k'
      · subst h1
        have hk : ¬ k = k0 := fun hh => h0 hh.symm
        simp [aset, alookup, h0, hk]
      · simp [aset, alookup, h0, h1, ih]

theorem alookup_isSome_of_mem {α β : Type} [DecidableEq α] :
    ∀ (m : List (α × β)) (kv : α × β), kv ∈ m → (alookup m kv.1).isSome := by
  intro m
  induction m with
  | nil => intro kv h; cases h
  | cons kv0 rest ih =>
    intro kv h
    obtain ⟨k0, v0⟩ := kv0
    by_cases h0 : k0 = kv.1
    · simp [alookup, h0]
    · rcases List.mem_cons.mp h with h1 | h1
      · exact absurd (congrArg Prod.fst h1.symm) h0
      · simpa [alookup, h0] using ih kv h1

theorem mem_aset_keys {α β : Type} [DecidableEq α] :
    ∀ (m : List (α × β)) (k : α) (v : β) (kv : α × β), kv ∈ aset m k v →
      kv.1 = k ∨ kv ∈ m := by
  intro m
  induction m with
  | nil => intro k v kv h; simp [aset] at h; simp [h]
  | cons kv0 rest ih =>
    intro k v kv h
    obtain ⟨k0, v0⟩ := kv0
    by_cases h0 : k0 = k
    · subst h0
      simp only [aset, if_pos rfl] at h
      rcases List.mem_cons.mp h with h1 | h1
      · left; rw [h1]
      · right; exact List.mem_cons_of_mem _ h1
    · simp only [aset, if_neg h0] at h
      rcases List.mem_cons.mp h with h1 | h1
      · right; rw [h1]; exact List.mem_cons_self _ _
      · rcases ih k v kv h1 with h2 | h2
        · left; exact h2
        · right; exact List.mem_cons_of_mem _ h2

/-! ### Forced-split lemmas -/

/-- Loop invariant of `_force_split`'s scan: any recorded best index has a
fitting cut (it was checked on the previous iteration), and the degenerate
flag is raised only on a fresh line (`remaining_width == box_width`). -/
theorem forceSplitGo_spec (size : Str → Nat × Nat) (seg : Str)
    (remaining : Int) (box : Nat) :
    ∀ (cs : Str) (ind : Nat) (best : Option Nat),
      (∀ b, best = some b →
        ((size (seg.take (b + 1) ++ ['-'])).1 : Int) ≤ remaining) →
      (0 < ind → ((size (seg.take ind ++ ['-'])).1 : Int) ≤ remaining) →
      (∀ b, (Text.forceSplitGo size seg remaining box ind cs best).1 = some b →
        ((size (seg.take (b + 1) ++ ['-'])).1 : Int) ≤ remaining) ∧
      ((Text.forceSplitGo size seg remaining box ind cs best).2 = true →
        remaining = (box : Int)) := by
  intro cs
  induction cs with
  | nil =>
    intro ind best hbest _
    refine ⟨fun b hb => hbest b hb, fun hfalse => ?_⟩
    simp [Text.forceSplitGo] at hfalse
  | cons c cs ih =>
    intro ind best hbest hprev
    simp only [Text.forceSplitGo]
    have hbest' : ∀ b, (if 0 < ind then some (ind - 1) else best) = some b →
        ((size (seg.take (b + 1) ++ ['-'])).1 : Int) ≤ remaining := by
      intro b hb
      by_cases hi : 0 < ind
      · rw [if_pos hi] at hb
        have : b = ind - 1 := by injection hb with hh; exact hh.symm
        subst this
        have : ind - 1 + 1 = ind := Nat.succ_pred_eq_of_pos hi
        rw [this]
        exact hprev hi
      · rw [if_neg hi] at hb
        exact hbest b hb
    by_cases hw : remaining < ((size (seg.take (ind + 1) ++ ['-'])).1 : Int)
    · rw [if_pos hw]
      refine ⟨hbest', fun hdec => ?_⟩
      have := of_decide_eq_true hdec
      exact this.2
    · rw [if_neg hw]
      exact ih (ind + 1) _ hbest' (fun _ => by
        simpa using le_of_not_lt hw)

/-- The `_force_split` either returns a fitting hyphenated cut of the
segment, or defers the whole segment, or (in the degenerate fresh-line
case only) drops it. -/
theorem forceSplit_cases (size : Str → Nat × Nat) (seg : Str)
    (remaining : Int) (box : Nat) :
    (∃ b, Text.forceSplit size seg remaining box =
        (seg.take (b + 1) ++ ['-'], seg.drop (b + 1)) ∧
        ((size (seg.take (b + 1) ++ ['-'])).1 : Int) ≤ remaining) ∨
    Text.forceSplit size seg remaining box = ([], seg) ∨
    (Text.forceSplit size seg remaining box = ([], []) ∧
      remaining = (box : Int)) := by
  have hs := forceSplitGo_spec size seg remaining box seg 0 none
    (fun b hb => by cases hb) (fun hh => absurd hh (lt_irrefl 0))
  unfold Text.forceSplit
  rcases hres : Text.forceSplitGo size seg remaining box 0 seg none with ⟨ob, z⟩
  rw [hres] at hs
  cases ob with
  | some b =>
    left
    exact ⟨b, rfl, hs.1 b rfl⟩
  | none =>
    cases z with
    | true => right; right; exact ⟨rfl, hs.2 rfl⟩
    | false => right; left; rfl

/-! ### Natural-split scan lemmas -/

/-- Every entry the scan records cuts the segment into a fitting left
part and the corresponding right part. -/
theorem splitScanGo_lookup_shape (size : Str → Nat × Nat) (seg : Str)
    (remaining : Int) (box : Nat) :
    ∀ (cs : Str) (ind : Nat) (acc : List (Char × Str × Str)),
      (∀ c' pre' post', alookup acc c' = some (pre', post') →
        pre' ++ post' = seg ∧ (pre' = [] ∨ ((size pre').1 : Int) ≤ remaining)) →
      ∀ c pre post,
        alookup (Text.splitScanGo size seg remaining box ind cs acc) c =
          some (pre, post) →
        pre ++ post = seg ∧ (pre = [] ∨ ((size pre).1 : Int) ≤ remaining) := by
  intro cs
  induction cs with
  | nil =>
    intro ind acc hacc c pre post h
    exact hacc c pre post h
  | cons ch cs ih =>
    intro ind acc hacc c pre post h
    rw [Text.splitScanGo] at h
    by_cases hskip : ch ∉ SPLIT_CHARS_AFTER ∧ ind = 0 ∧ remaining = (box : Int)
    · rw [if_pos hskip] at h
      exact ih (ind + 1) acc hacc c pre post h
    · rw [if_neg hskip] at h
      by_cases hw : ((size (seg.take (if ch ∈ SPLIT_CHARS_AFTER then ind + 1
          else ind))).1 : Int) ≤ remaining
      · rw [if_pos hw] at h
        refine ih (ind + 1) _ ?_ c pre post h
        intro c' pre' post' h'
        by_cases hrec : ch ∈ SPLIT_CHARS_ALL ∧ ch ≠ 'N'
        · rw [if_pos hrec, alookup_aset] at h'
          by_cases hc' : ch = c'
          · rw [if_pos hc'] at h'
            injection h' with hh
            rw [Prod.mk.injEq] at hh
            obtain ⟨h1, h2⟩ := hh
            constructor
            · rw [← h1, ← h2]; exact List.take_append_drop _ _
            · right; rw [← h1]; exact hw
          · rw [if_neg hc'] at h'
            exact hacc c' pre' post' h'
        · rw [if_neg hrec] at h'
          exact hacc c' pre' post' h'
      · rw [if_neg hw] at h
        exact hacc c pre post h

/-- Every entry of `possible_split_points` cuts the segment into a left
part and right part whose concatenation is the segment; a non-empty left
part fits the remaining width. -/
theorem splitPoints_lookup_shape (size : Str → Nat × Nat) (seg : Str)
    (remaining : Int) (box : Nat) (c : Char) (pre post : Str)
    (h : alookup (Text.splitPoints size seg remaining box) c = some (pre, post)) :
    pre ++ post = seg ∧ (pre = [] ∨ ((size pre).1 : Int) ≤ remaining) := by
  unfold Text.splitPoints at h
  refine splitScanGo_lookup_shape size seg remaining box seg 0 _ ?_ c pre post h
  intro c' pre' post' h'
  by_cases hi : remaining < (box : Int) ∧ 'N' ∈ SPLIT_CHARS_ALL
  · rw [if_pos hi] at h'
    unfold alookup at h'
    by_cases hn : 'N' = c'
    · rw [if_pos hn] at h'
      injection h' with hh
      rw [Prod.mk.injEq] at hh
      obtain ⟨h1, h2⟩ := hh
      exact ⟨by rw [← h1, ← h2]; rfl, Or.inl h1.symm⟩
    · rw [if_neg hn] at h'
      cases h'
  · rw [if_neg hi] at h'
    cases h'

/-- Every key recorded by the scan is a member of `SPLIT_CHARS_ALL`. -/
theorem splitScanGo_keys_mem (size : Str → Nat × Nat) (seg : Str)
    (remaining : Int) (box : Nat) :
    ∀ (cs : Str) (ind : Nat) (acc : List (Char × Str × Str)),
      (∀ kv ∈ acc, kv.1 ∈ SPLIT_CHARS_ALL) →
      ∀ kv ∈ Text.splitScanGo size seg remaining box ind cs acc,
        kv.1 ∈ SPLIT_CHARS_ALL := by
  intro cs
  induction cs with
  | nil => intro ind acc hacc kv h; exact hacc kv h
  | cons ch cs ih =>
    intro ind acc hacc kv h
    rw [Text.splitScanGo] at h
    by_cases hskip : ch ∉ SPLIT_CHARS_AFTER ∧ ind = 0 ∧ remaining = (box : Int)
    · rw [if_pos hskip] at h
      exact ih (ind + 1) acc hacc kv h
    · rw [if_neg hskip] at h
      by_cases hw : ((size (seg.take (if ch ∈ SPLIT_CHARS_AFTER then ind + 1
          else ind))).1 : Int) ≤ remaining
      · rw [if_pos hw] at h
        refine ih (ind + 1) _ ?_ kv h
        intro kv' h'
        by_cases hrec : ch ∈ SPLIT_CHARS_ALL ∧ ch ≠ 'N'
        · rw [if_pos hrec] at h'
          rcases mem_aset_keys _ _ _ kv' h' with h2 | h2
          · rw [h2]; exact hrec.1
          · exact hacc kv' h2
        · rw [if_neg hrec] at h'
          exact hacc kv' h'
      · rw [if_neg hw] at h
        exact hacc kv h

/-- Every key of `possible_split_points` is in `SPLIT_CHARS_ALL` (so the
source's sorted-by-precedence choice is total on the dict's keys). -/
theorem splitPoints_keys_mem (size : Str → Nat × Nat) (seg : Str)
    (remaining : Int) (box : Nat) :
    ∀ kv ∈ Text.splitPoints size seg remaining box, kv.1 ∈ SPLIT_CHARS_ALL := by
  unfold Text.splitPoints
  refine splitScanGo_keys_mem size seg remaining box seg 0 _ ?_
  intro kv h
  by_cases hi : remaining < (box : Int) ∧ 'N' ∈ SPLIT_CHARS_ALL
  · rw [if_pos hi] at h
    rcases List.mem_singleton.mp h with h1
    rw [h1]; exact hi.2
  · rw [if_neg hi] at h
    cases h

/-- The `Text.split` either returns one of the scan's candidates, or (when
the candidate dict is empty, as in the source's
`if possible_split_points:`) falls back to `_force_split`. -/
theorem split_cases (size : Str → Nat × Nat) (seg : Str) (remaining : Int)
    (box : Nat) :
    (∃ c pre post,
      alookup (Text.splitPoints size seg remaining box) c = some (pre, post) ∧
      Text.split size seg remaining box = (pre, post)) ∨
    (Text.splitPoints size seg remaining box = [] ∧
      Text.split size seg remaining box =
        Text.forceSplit size seg remaining box) := by
  unfold Text.split
  rcases hf : SPLIT_CHARS_ALL.find?
      (fun c => (alookup (Text.splitPoints size seg remaining box) c).isSome)
    with _ | c
  · right
    constructor
    · by_contra hne
      obtain ⟨kv, hkv⟩ := List.exists_mem_of_ne_nil _ hne
      have hmem := splitPoints_keys_mem size seg remaining box kv hkv
      have hsome := alookup_isSome_of_mem _ kv hkv
      have := List.find?_eq_none.mp hf kv.1 hmem
      rw [hsome] at this
      exact this rfl
    · simp [hf]
  · left
    have hsome := List.find?_some hf
    rw [Option.isSome_iff_exists] at hsome
    obtain ⟨pp, hpp⟩ := hsome
    obtain ⟨pre, post⟩ := pp
    exact ⟨c, pre, post, hpp, by simp [hf, hpp]⟩

/-- C10, amended: for every call on a non-empty displayed segment, when a
natural candidate exists the returned pair partitions the segment
exactly; when none exists and the forced split returns a non-empty left
part, that part is the matching left slice of the segment plus a single
trailing hyphen, partitioning the segment exactly once the hyphen is
stripped; when the forced split returns an empty left part it either
defers the entire segment or, in the degenerate fresh-line case
(`remaining_width == box_width`, no character plus hyphen fits), returns
an empty remainder as well, dropping the segment (the C10
counterexample). -/
theorem C10_split_partition (size : Str → Nat × Nat) (seg : Str)
    (remaining : Int) (box : Nat) (_hseg : seg ≠ []) :
    (Text.splitPoints size seg remaining box ≠ [] →
      (Text.split size seg remaining box).1 ++
        (Text.split size seg remaining box).2 = seg) ∧
    (Text.splitPoints size seg remaining box = [] →
      (Text.split size seg remaining box).1 ≠ [] →
      (Text.split size seg remaining box).1.dropLast ++
        (Text.split size seg remaining box).2 = seg ∧
      (Text.split size seg remaining box).1.getLast? = some '-') ∧
    (Text.splitPoints size seg remaining box = [] →
      (Text.split size seg remaining box).1 = [] →
      (Text.split size seg remaining box).2 = seg ∨
        ((Text.split size seg remaining box).2 = [] ∧
          remaining = (box : Int))) := by
  rcases split_cases size seg remaining box with
    ⟨c, pre, post, hlook, heq⟩ | ⟨hempty, heq⟩
  · have hpp := splitPoints_lookup_shape size seg remaining box c pre post hlook
    refine ⟨fun _ => ?_, fun h0 => ?_, fun h0 => ?_⟩
    · rw [heq]; exact hpp.1
    · exfalso
      rw [h0] at hlook
      cases hlook
    · exfalso
      rw [h0] at hlook
      cases hlook
  · refine ⟨fun hne => absurd hempty hne, fun _ hne => ?_, fun _ h1 => ?_⟩
    · rw [heq] at hne ⊢
      rcases forceSplit_cases size seg remaining box with ⟨b, hb, _⟩ | hb | ⟨hb, _⟩
      · rw [hb]
        constructor
        · simp only [List.dropLast_concat]
          exact List.take_append_drop _ _
        · simp [List.getLast?_concat]
      · rw [hb] at hne; exact absurd rfl hne
      · rw [hb] at hne; exact absurd rfl hne
    · rw [heq] at h1 ⊢
      rcases forceSplit_cases size seg remaining box with ⟨b, hb, _⟩ | hb | ⟨hb, hd⟩
      · rw [hb] at h1
        simp at h1
      · left; rw [hb]
      · right; rw [hb]; exact ⟨rfl, hd⟩

/-- Witness for `C10_split_partition` (natural-split scenario from the
source's doctest). -/
theorem C10_split_partition_witness :
    (Text.splitPoints (monoSize 1 1) ("aaa-bbbbb".toList) 4 4 ≠ [] →
      (Text.split (monoSize 1 1) ("aaa-bbbbb".toList) 4 4).1 ++
        (Text.split (monoSize 1 1) ("aaa-bbbbb".toList) 4 4).2 =
        "aaa-bbbbb".toList) ∧
    (Text.splitPoints (monoSize 1 1) ("aaa-bbbbb".toList) 4 4 = [] →
      (Text.split (monoSize 1 1) ("aaa-bbbbb".toList) 4 4).1 ≠ [] →
      (Text.split (monoSize 1 1) ("aaa-bbbbb".toList) 4 4).1.dropLast ++
        (Text.split (monoSize 1 1) ("aaa-bbbbb".toList) 4 4).2 =
        "aaa-bbbbb".toList ∧
      (Text.split (monoSize 1 1) ("aaa-bbbbb".toList) 4 4).1.getLast? =
        some '-') ∧
    (Text.splitPoints (monoSize 1 1) ("aaa-bbbbb".toList) 4 4 = [] →
      (Text.split (monoSize 1 1) ("aaa-bbbbb".toList) 4 4).1 = [] →
      (Text.split (monoSize 1 1) ("aaa-bbbbb".toList) 4 4).2 =
        "aaa-bbbbb".toList ∨
        ((Text.split (monoSize 1 1) ("aaa-bbbbb".toList) 4 4).2 = [] ∧
          (4 : Int) = ((4 : Nat) : Int))) :=
  C10_split_partition (monoSize 1 1) ("aaa-bbbbb".toList) 4 4 (by decide)

/-! ### Width invariant (C2) -/

/-- The left part returned by `Text.split` is empty or fits the
remaining width. -/
theorem split_fst_width (size : Str → Nat × Nat) (seg : Str)
    (remaining : Int) (box : Nat) :
    (Text.split size seg remaining box).1 = [] ∨
    ((size (Text.split size seg remaining box).1).1 : Int) ≤ remaining := by
  rcases split_cases size seg remaining box with
    ⟨c, pre, post, hlook, heq⟩ | ⟨_, heq⟩
  · rw [heq]
    exact (splitPoints_lookup_shape size seg remaining box c pre post hlook).2
  · rw [heq]
    rcases forceSplit_cases size seg remaining box with ⟨b, hb, hw⟩ | hb | ⟨hb, _⟩
    · right; rw [hb]; exact hw
    · left; rw [hb]
    · left; rw [hb]

/-- The `fit_text` preserves the width bound: a line whose accumulated width
is within the box width stays within it (texts are only appended when
they fit whole or after a fitting split). -/
theorem fitText_width (boxWidth : Nat) :
    ∀ (pending : List TextId) (arena : List TextObj) (line : Line)
      (added : List TextId), line.width ≤ boxWidth →
      (Line.fitText boxWidth arena line pending added).line.width ≤ boxWidth := by
  intro pending
  induction pending with
  | nil => intro arena line added h; exact h
  | cons t rest ih =>
    intro arena line added h
    rw [Line.fitText]
    by_cases hnl : line.newLine
    · rw [if_pos hnl]; exact h
    · rw [if_neg hnl]
      by_cases hmem : t ∈ line.textList
      · rw [if_pos hmem]; exact h
      · rw [if_neg hmem]
        simp only
        set txt := (match alookup line.textSegments t with
          | some seg => { (arena.getD t TextObj.default0) with textSegment := seg }
          | none => arena.getD t TextObj.default0) with htxt
        by_cases hfit : line.width + (txt.size txt.textSegment).1 ≤ boxWidth
        · rw [if_pos hfit]
          by_cases hn2 : txt.newLine
          · rw [if_pos hn2]; exact hfit
          · rw [if_neg hn2]
            exact ih _ _ _ hfit
        · rw [if_neg hfit]
          set segs := Text.split txt.size txt.textSegment
            ((boxWidth : Int) - (line.width : Int)) boxWidth with hsegs
          have hwid : segs.1 = [] ∨
              ((txt.size segs.1).1 : Int) ≤ (boxWidth : Int) - (line.width : Int) := by
            rw [hsegs]
            exact split_fst_width txt.size txt.textSegment _ boxWidth
          by_cases hne : segs.1 ≠ []
          · rw [if_pos hne]
            rcases hwid with hw0 | hw0
            · exact absurd hw0 hne
            · have : line.width + (txt.size segs.1).1 ≤ boxWidth := by omega
              by_cases hq : segs.2 ≠ [] <;> simp [hq, this]
          · rw [if_neg hne]
            by_cases hq : segs.2 ≠ [] <;> simp [hq, h]

/-- Carry-over re-injection touches only the line's `text_segments`. -/
theorem reinjectRemainingGo_line : ∀ (todo : List (TextId × Str)) (line : Line)
    (rem : List (TextId × Str)),
    (reinjectRemainingGo todo line rem).1.width = line.width ∧
    (reinjectRemainingGo todo line rem).1.height = line.height ∧
    (reinjectRemainingGo todo line rem).1.textList = line.textList ∧
    (reinjectRemainingGo todo line rem).1.newLine = line.newLine := by
  intro todo
  induction todo with
  | nil => intro line rem; exact ⟨rfl, rfl, rfl, rfl⟩
  | cons kv todo ih =>
    intro line rem
    rw [reinjectRemainingGo]
    split
    · exact ih _ _
    · exact ih _ _

/-- Reconciliation touches only the line's `text_segments`. -/
theorem reconcileSegmentsGo_line : ∀ (todo : List (TextId × Str)) (line : Line)
    (rem : List (TextId × Str)),
    (reconcileSegmentsGo todo line rem).1.width = line.width ∧
    (reconcileSegmentsGo todo line rem).1.height = line.height ∧
    (reconcileSegmentsGo todo line rem).1.textList = line.textList ∧
    (reconcileSegmentsGo todo line rem).1.newLine = line.newLine := by
  intro todo
  induction todo with
  | nil => intro line rem; exact ⟨rfl, rfl, rfl, rfl⟩
  | cons kv todo ih =>
    intro line rem
    rw [reconcileSegmentsGo]
    split
    · exact ih _ _
    · exact ih _ _

/-- The wrap loop commits only lines whose width is within the box
width, assuming the lines already committed satisfy the bound and the
line under construction does. -/
theorem wrapLoop_width (all_ : Bool) (boxWidth : Nat) :
    ∀ (fuel : Nat) (s : WrapState) (line : Line) (nts : Option (TextId × Str))
      (added : Nat),
      (∀ L ∈ s.lines, L.width ≤ boxWidth) → line.width ≤ boxWidth →
      ∀ L ∈ (WrapState.wrapLoop all_ boxWidth fuel s line nts added).1.lines,
        L.width ≤ boxWidth := by
  intro fuel
  induction fuel with
  | zero => intro s line nts added hs hl L hL; exact hs L hL
  | succ k ih =>
    intro s line nts added hs hl L hL
    rw [WrapState.wrapLoop] at hL
    by_cases hstop : s.newTextList = [] ∧ line.textSegments = []
    · rw [if_pos hstop] at hL; exact hs L hL
    · rw [if_neg hstop] at hL
      dsimp only at hL
      -- the committed-line candidate after fit and reconcile
      have hrj : (reinjectRemaining line s.remainingSegments).1.width = line.width :=
        (reinjectRemainingGo_line _ _ _).1
      have hfit : (Line.fitText boxWidth s.arena
          (reinjectRemaining line s.remainingSegments).1 s.newTextList
          []).line.width ≤ boxWidth :=
        fitText_width boxWidth _ _ _ _ (by rw [hrj]; exact hl)
      split at hL
      · -- height-overflow rollback: the committed lines are untouched
        split at hL <;> exact hs L hL
      · -- commit and recurse
        refine ih _ _ _ _ ?_ ?_ L hL
        · intro L2 hL2
          have hmem : L2 ∈ s.lines ++ [(reconcileSegments
              (Line.fitText boxWidth s.arena
                (reinjectRemaining line s.remainingSegments).1 s.newTextList
                []).line
              (reinjectRemaining line s.remainingSegments).2).1] := by
            split at hL2 <;> exact hL2
          rcases List.mem_append.mp hmem with h2 | h2
          · exact hs L2 h2
          · rcases List.mem_singleton.mp h2 with rfl
            unfold reconcileSegments
            rw [(reconcileSegmentsGo_line
              (Line.fitText boxWidth s.arena
                (reinjectRemaining line s.remainingSegments).1 s.newTextList
                []).line.textSegments
              (Line.fitText boxWidth s.arena
                (reinjectRemaining line s.remainingSegments).1 s.newTextList
                []).line
              (reinjectRemaining line s.remainingSegments).2).1]
            exact hfit
        · rcases hnts : (Line.fitText boxWidth s.arena
              (reinjectRemaining line s.remainingSegments).1 s.newTextList
              []).following with _ | is
          · simp [Line.empty]
          · have hw : ∀ (c : Prop) (hc : Decidable c) (L1 L2 : Line),
                L1.width ≤ boxWidth → L2.width ≤ boxWidth →
                (@ite _ c hc L1 L2).width ≤ boxWidth := by
              intro c hc L1 L2 h1 h2
              split <;> assumption
            exact hw _ _ _ _ (by simp [Line.empty]) (by simp [Line.empty])

/-- C2: the width invariant.  `fit_text` keeps a line's accumulated width
within the box width, and a wrap pass (`_wrap_new_lines` with default
arguments) keeps every committed line's width within the viewport width,
given that the already-committed lines satisfy the bound (the popped line
is refilled against the same width).  No exception is needed: in the
degenerate single-character case the split contributes an empty segment
(which is not appended), leaving the width unchanged. -/
theorem C2_width_invariant (boxWidth : Nat) (arena : List TextObj)
    (line : Line) (pending added : List TextId) (s : WrapState) (fuel : Nat)
    (hline : line.width ≤ boxWidth)
    (hs : ∀ L ∈ s.lines, L.width ≤ s.posW) :
    (Line.fitText boxWidth arena line pending added).line.width ≤ boxWidth ∧
    ∀ L ∈ ((s.wrap fuel).1).lines, L.width ≤ s.posW := by
  refine ⟨fitText_width boxWidth pending arena line added hline, ?_⟩
  intro L hL
  unfold WrapState.wrap WrapState.wrapNewLines at hL
  split at hL
  · -- a wrap pass runs: the first line is popped by `_next_line`
    unfold WrapState.nextLine at hL
    rcases hgl : s.lines.getLast? with _ | lastL
    · rw [hgl] at hL
      exact wrapLoop_width false s.posW fuel s Line.empty none 0 hs
        (by simp [Line.empty]) L hL
    · rw [hgl] at hL
      have hlast : lastL ∈ s.lines := by
        obtain ⟨hne, heq⟩ := List.mem_getLast?_eq_getLast (l := s.lines)
          (x := lastL) (by rw [hgl]; exact rfl)
        rw [heq]
        exact List.getLast_mem hne
      refine wrapLoop_width false s.posW fuel _ lastL none 0 ?_
        (hs lastL hlast) L hL
      intro L2 hL2
      exact hs L2 ((List.dropLast_sublist s.lines).subset hL2)
  · exact hs L hL

/-- Witness for `C2_width_invariant` at an empty line and a fresh box. -/
theorem C2_width_invariant_witness :
    (Line.fitText 5 [] Line.empty [] []).line.width ≤ 5 ∧
    ∀ L ∈ (((WrapState.init 4 4).wrap 3).1).lines, L.width ≤ (WrapState.init 4 4).posW :=
  C2_width_invariant 5 [] Line.empty [] [] (WrapState.init 4 4) 3
    (by decide) (by intro L hL; cases hL)

/-! ### Coast-scroll (C9) -/

theorem calculateHeight_dragSpeed (s : WrapState) :
    (s.calculateHeight).dragSpeed = s.dragSpeed := rfl

theorem calculateHeight_dragsToGo (s : WrapState) :
    (s.calculateHeight).dragsToGo = s.dragsToGo := rfl

/-- The `scroll_lines` leaves the drag fields unchanged. -/
theorem scrollLinesGo_drag : ∀ (fuel : Nat) (s : WrapState) (n : Int),
    (WrapState.scrollLinesGo fuel s n).dragSpeed = s.dragSpeed ∧
    (WrapState.scrollLinesGo fuel s n).dragsToGo = s.dragsToGo := by
  intro fuel
  induction fuel with
  | zero => intro s n; exact ⟨rfl, rfl⟩
  | succ k ih =>
    intro s n
    simp only [WrapState.scrollLinesGo]
    constructor
    · rw [calculateHeight_dragSpeed]
      split
      · exact (ih _ _).1
      · rfl
    · rw [calculateHeight_dragsToGo]
      split
      · exact (ih _ _).2
      · rfl

/-- The fractional carry kept by `coast_scroll` after a whole-line scroll
(`drags_to_go %= int(drags_to_go)`) is strictly below one line. -/
theorem pyFloatMod_trunc_lt_one (x : ℚ) (h : 1 < |x|) :
    |pyFloatMod x (pyTrunc x)| < 1 := by
  have main : ∀ y : ℚ, 1 < y → |pyFloatMod y ⌊y⌋| < 1 := by
    intro y hy
    have hm1 : (1 : Int) ≤ ⌊y⌋ := Int.le_floor.mpr (by exact_mod_cast hy.le)
    have hm0i : (0 : Int) < ⌊y⌋ := lt_of_lt_of_le Int.zero_lt_one hm1
    have hm0 : (0 : ℚ) < (⌊y⌋ : ℚ) := by exact_mod_cast hm0i
    have hle := Int.floor_le y
    have hlt := Int.lt_floor_add_one y
    have hfl : ⌊y / (⌊y⌋ : ℚ)⌋ = 1 := by
      rw [Int.floor_eq_iff]
      constructor
      · push_cast
        rw [le_div_iff₀ hm0]
        simpa using hle
      · push_cast
        rw [div_lt_iff₀ hm0]
        have h2 : (1 : ℚ) ≤ (⌊y⌋ : ℚ) := by exact_mod_cast hm1
        nlinarith
    unfold pyFloatMod
    rw [hfl]
    push_cast
    rw [abs_lt]
    constructor <;> linarith
  rcases lt_or_le 0 x with hx | hx
  · have hx1 : 1 < x := by rwa [abs_of_pos hx] at h
    have ht : pyTrunc x = ⌊x⌋ := by unfold pyTrunc; rw [if_pos hx.le]
    rw [ht]
    exact main x hx1
  · have hx1 : 1 < -x := by rwa [abs_of_nonpos hx] at h
    have hxneg : x < 0 := by linarith
    have ht : pyTrunc x = -⌊-x⌋ := by
      unfold pyTrunc
      rw [if_neg (not_le.mpr hxneg)]
      rw [← neg_neg ⌈x⌉, ← Int.floor_neg]
    have hsym : pyFloatMod x (pyTrunc x) = -(pyFloatMod (-x) ⌊-x⌋) := by
      rw [ht]
      unfold pyFloatMod
      have harg : x / ((-⌊-x⌋ : Int) : ℚ) = (-x) / ((⌊-x⌋ : Int) : ℚ) := by
        push_cast
        rw [div_neg, neg_div]
      rw [harg]
      push_cast
      ring
    rw [hsym, abs_neg]
    exact main (-x) hx1

/-- C9, counterexample: the decay is not exponential.  From drag speed 30
(above the deadzone) a single coasting step with one second elapsed
drives the speed to exactly zero (`30 - 35·1` clamped at 0); exponential
decay from a positive speed stays positive for any finite elapsed time. -/
theorem C9_counterexample :
    (0 : ℚ) < coastingState.dragSpeed ∧
    (coastingState.coastScroll 1).dragSpeed = 0 := by
  have h30 : coastingState.dragSpeed = 30 := rfl
  refine ⟨by rw [h30]; norm_num, ?_⟩
  have hact : coastingState.dragSpeed ≠ 0 ∧
      (DRAG_DEADZONE < |coastingState.dragSpeed| ∨
        coastingState.dragsToGo ≠ 0) := by
    refine ⟨by rw [h30]; norm_num, Or.inl ?_⟩
    rw [h30, abs_of_pos (by norm_num : (0:ℚ) < 30)]
    norm_num [DRAG_DEADZONE]
  unfold WrapState.coastScroll
  rw [if_pos hact]
  have habs : |(0:ℚ) + 30 * 1| = 30 := by
    rw [abs_of_pos] <;> norm_num
  simp only [coastingState, WrapState.init]
  norm_num [habs]
  unfold WrapState.scrollLines
  rw [(scrollLinesGo_drag 2 _ _).1]
  norm_num [DRAG_DECELERATION, sup_eq_left]

/-- C9, amended: while coasting (non-zero speed above the deadzone or
with carry), a step integrates `drag_speed · dt` into the accumulator and
decays the speed magnitude *linearly* by exactly
`DRAG_DECELERATION · dt`, clamped at zero (never overshooting past
zero); if the new accumulator magnitude stays within one line no scroll
happens and the accumulator is exactly the integrated value; if it
exceeds one line, whole lines are scrolled and the kept fractional carry
is strictly below one line.  When not coasting, the step only clears the
accumulator (no scroll, speed unchanged). -/
theorem C9_coast_linear (s : WrapState) (dt : ℚ) :
    (coastActive s →
      |(s.coastScroll dt).dragSpeed| =
        max 0 (|s.dragSpeed| - DRAG_DECELERATION * dt)) ∧
    (¬ coastActive s → s.coastScroll dt = { s with dragsToGo := 0 }) ∧
    (coastActive s → |s.dragsToGo + s.dragSpeed * dt| ≤ 1 →
      (s.coastScroll dt).dragsToGo = s.dragsToGo + s.dragSpeed * dt ∧
      (s.coastScroll dt).lineNum = s.lineNum ∧
      (s.coastScroll dt).lines = s.lines) ∧
    (coastActive s → 1 < |s.dragsToGo + s.dragSpeed * dt| →
      |(s.coastScroll dt).dragsToGo| < 1) := by
  unfold WrapState.coastScroll
  unfold coastActive
  by_cases hact : s.dragSpeed ≠ 0 ∧ (DRAG_DEADZONE < |s.dragSpeed| ∨ s.dragsToGo ≠ 0)
  · rw [if_pos hact]
    dsimp only
    obtain ⟨hne, hrest⟩ := hact
    refine ⟨fun _ => ?_, fun hn => absurd ⟨hne, hrest⟩ hn, fun _ hle => ?_,
      fun _ hgt => ?_⟩
    · -- linear decay of the speed magnitude
      rcases lt_trichotomy s.dragSpeed 0 with hv | hv | hv
      · rw [if_pos hv]
        split
        · unfold WrapState.scrollLines
          rw [(scrollLinesGo_drag 2 _ _).1]
          rw [abs_of_nonpos (min_le_of_left_le le_rfl)]
          rw [abs_of_neg hv]
          rcases le_total (s.dragSpeed + DRAG_DECELERATION * dt) 0 with h0 | h0
          · rw [min_eq_right h0, max_eq_right (by linarith)]
            ring
          · rw [min_eq_left h0, max_eq_left (by linarith)]
            norm_num
        · rw [abs_of_nonpos (min_le_of_left_le le_rfl)]
          rw [abs_of_neg hv]
          rcases le_total (s.dragSpeed + DRAG_DECELERATION * dt) 0 with h0 | h0
          · rw [min_eq_right h0, max_eq_right (by linarith)]
            ring
          · rw [min_eq_left h0, max_eq_left (by linarith)]
            norm_num
      · exact absurd hv hne
      · rw [if_neg (by linarith : ¬ s.dragSpeed < 0), if_pos hv]
        split
        · unfold WrapState.scrollLines
          rw [(scrollLinesGo_drag 2 _ _).1]
          rw [abs_of_nonneg (le_max_left 0 _), abs_of_pos hv]
        · rw [abs_of_nonneg (le_max_left 0 _), abs_of_pos hv]
    · -- no threshold crossing: pure integration, no scroll
      rcases lt_trichotomy s.dragSpeed 0 with hv | hv | hv
      · rw [if_pos hv, if_neg (not_lt.mpr hle)]
        exact ⟨rfl, rfl, rfl⟩
      · exact absurd hv hne
      · rw [if_neg (by linarith : ¬ s.dragSpeed < 0), if_pos hv,
          if_neg (not_lt.mpr hle)]
        exact ⟨rfl, rfl, rfl⟩
    · -- threshold crossed: the kept carry is below one line
      rcases lt_trichotomy s.dragSpeed 0 with hv | hv | hv
      · rw [if_pos hv, if_pos hgt]
        unfold WrapState.scrollLines
        rw [(scrollLinesGo_drag 2 _ _).2]
        exact pyFloatMod_trunc_lt_one _ hgt
      · exact absurd hv hne
      · rw [if_neg (by linarith : ¬ s.dragSpeed < 0), if_pos hv, if_pos hgt]
        unfold WrapState.scrollLines
        rw [(scrollLinesGo_drag 2 _ _).2]
        exact pyFloatMod_trunc_lt_one _ hgt
  · rw [if_neg hact]
    refine ⟨fun h => absurd h hact, fun _ => rfl, fun h => absurd h hact,
      fun h => absurd h hact⟩

/-- Witness for `C9_coast_linear` at the concrete coasting state. -/
theorem C9_coast_linear_witness :
    |(coastingState.coastScroll 1).dragSpeed| =
      max 0 (|coastingState.dragSpeed| - DRAG_DECELERATION * 1) ∧
    |(coastingState.coastScroll 1).dragsToGo| < 1 := by
  have hA : coastActive coastingState := by
    constructor
    · show (30 : ℚ) ≠ 0
      norm_num
    · left
      show DRAG_DEADZONE < |(30 : ℚ)|
      rw [abs_of_pos (by norm_num : (0:ℚ) < 30)]
      norm_num [DRAG_DEADZONE]
  have hB : 1 < |coastingState.dragsToGo + coastingState.dragSpeed * 1| := by
    show (1 : ℚ) < |0 + 30 * 1|
    rw [abs_of_pos] <;> norm_num
  exact ⟨(C9_coast_linear coastingState 1).1 hA,
    (C9_coast_linear coastingState 1).2.2.2 hA hB⟩

/-! ### Precedence characterization of the natural-split choice (C3) -/

/-- Reading the segment suffix during the scan: the head of
`seg.drop ind` is the character at index `ind`. -/
theorem drop_cons_facts : ∀ (ind : Nat) (seg : Str) (c : Char) (cs : Str),
    seg.drop ind = c :: cs →
    segChar seg ind = c ∧ seg.drop (ind + 1) = cs ∧ ind < seg.length := by
  intro ind
  induction ind with
  | zero =>
    intro seg c cs h
    rw [List.drop_zero] at h
    subst h
    exact ⟨rfl, rfl, Nat.succ_pos _⟩
  | succ n ih =>
    intro seg c cs h
    cases seg with
    | nil => simp at h
    | cons a rest =>
      rw [List.drop_succ_cons] at h
      obtain ⟨h1, h2, h3⟩ := ih rest c cs h
      refine ⟨?_, ?_, Nat.succ_lt_succ h3⟩
      · simpa [segChar, List.getD] using h1
      · rw [List.drop_succ_cons]
        exact h2

/-- The scan never records the boundary key `N` (the source skips the
literal character `N` via `char != "N"`), so its binding is exactly the
seeded one. -/
theorem splitScanGo_lookup_N (size : Str → Nat × Nat) (seg : Str)
    (remaining : Int) (box : Nat) :
    ∀ (cs : Str) (ind : Nat) (acc : List (Char × Str × Str)),
      alookup (Text.splitScanGo size seg remaining box ind cs acc) 'N' =
        alookup acc 'N' := by
  intro cs
  induction cs with
  | nil => intro ind acc; rfl
  | cons ch cs ih =>
    intro ind acc
    rw [Text.splitScanGo]
    by_cases hskip : ch ∉ SPLIT_CHARS_AFTER ∧ ind = 0 ∧ remaining = (box : Int)
    · rw [if_pos hskip]
      exact ih (ind + 1) acc
    · rw [if_neg hskip]
      by_cases hw : ((size (seg.take (if ch ∈ SPLIT_CHARS_AFTER then ind + 1
          else ind))).1 : Int) ≤ remaining
      · rw [if_pos hw]
        by_cases hrec : ch ∈ SPLIT_CHARS_ALL ∧ ch ≠ 'N'
        · rw [if_pos hrec, ih]
          rw [alookup_aset, if_neg hrec.2]
        · rw [if_neg hrec, ih]
      · rw [if_neg hw]

/-- The `possible_split_points` holds the boundary candidate `N ↦ ("", seg)`
exactly when the fragment does not start a fresh line. -/
theorem splitPoints_lookup_N (size : Str → Nat × Nat) (seg : Str)
    (remaining : Int) (box : Nat) :
    alookup (Text.splitPoints size seg remaining box) 'N' =
      if remaining < (box : Int) then some ([], seg) else none := by
  unfold Text.splitPoints
  rw [splitScanGo_lookup_N]
  by_cases hrb : remaining < (box : Int)
  · rw [if_pos hrb, if_pos ⟨hrb, by decide⟩]
    rfl
  · rw [if_neg hrb, if_neg (fun hh => hrb hh.1)]
    rfl

/-- The `List.find?` returns the earliest satisfying element: the found
element minimizes `indexOf` among all satisfying members. -/
theorem find?_min_indexOf : ∀ (l : List Char) (p : Char → Bool) (c : Char),
    l.find? p = some c →
    p c = true ∧ ∀ c' ∈ l, p c' = true → l.indexOf c ≤ l.indexOf c' := by
  intro l
  induction l with
  | nil => intro p c h; cases h
  | cons a l ih =>
    intro p c h
    by_cases ha : p a
    · rw [List.find?_cons_of_pos _ ha] at h
      injection h with h
      subst h
      refine ⟨ha, fun c' hc' hp => ?_⟩
      rw [List.indexOf_cons_self]
      exact Nat.zero_le _
    · rw [List.find?_cons_of_neg _ (by simpa using ha)] at h
      obtain ⟨hp, hmin⟩ := ih p c h
      refine ⟨hp, fun c' hc' hpc' => ?_⟩
      have hca : c ≠ a := fun hh => ha (hh ▸ hp)
      have hc'a : c' ≠ a := fun hh => ha (hh ▸ hpc')
      rcases List.mem_cons.mp hc' with h1 | h1
      · exact absurd h1 hc'a
      · rw [List.indexOf_cons_ne _ (Ne.symm hca), List.indexOf_cons_ne _ (Ne.symm hc'a)]
        exact Nat.succ_le_succ (hmin c' h1 hpc')

/-- The scan, started at index `ind` with the indices below `ind` already
checked, binds each split character (other than the boundary marker) to
the cut of its *latest* candidate occurrence; characters with no
candidate occurrence at or past `ind` keep their incoming binding. -/
theorem splitScanGo_lookup_latest (size : Str → Nat × Nat) (seg : Str)
    (remaining : Int) (box : Nat) :
    ∀ (cs : Str) (ind : Nat) (acc : List (Char × Str × Str)),
      seg.drop ind = cs →
      scanReaches size seg remaining box ind →
      ∀ c : Char, c ≠ 'N' →
      ((∃ i, ind ≤ i ∧ isNatCandidate size seg remaining box i ∧
          segChar seg i = c) →
        ∃ i, ind ≤ i ∧ isNatCandidate size seg remaining box i ∧
          segChar seg i = c ∧
          alookup (Text.splitScanGo size seg remaining box ind cs acc) c =
            some (seg.take (splitCutIndex seg i),
              seg.drop (splitCutIndex seg i)) ∧
          (∀ j, isNatCandidate size seg remaining box j → segChar seg j = c →
            j ≤ i)) ∧
      ((¬ ∃ i, ind ≤ i ∧ isNatCandidate size seg remaining box i ∧
          segChar seg i = c) →
        alookup (Text.splitScanGo size seg remaining box ind cs acc) c =
          alookup acc c) := by
  intro cs
  induction cs with
  | nil =>
    intro ind acc hdrop _ c _
    have hlen : seg.length ≤ ind := by
      by_contra hh
      push_neg at hh
      have := congrArg List.length hdrop
      rw [List.length_drop] at this
      simp at this
      omega
    constructor
    · rintro ⟨i, hle, hcand, -⟩
      have := hcand.1
      omega
    · intro _
      rfl
  | cons ch cs ih =>
    intro ind acc hdrop hreach c hcN
    obtain ⟨hchar, hdrop2, hlt⟩ := drop_cons_facts ind seg ch cs hdrop
    rw [Text.splitScanGo]
    by_cases hskip : ch ∉ SPLIT_CHARS_AFTER ∧ ind = 0 ∧ remaining = (box : Int)
    · rw [if_pos hskip]
      have hskips : scanSkips seg remaining box ind := by
        unfold scanSkips
        rw [hchar]
        exact hskip
      have hreach2 : scanReaches size seg remaining box (ind + 1) := by
        intro j hj
        rcases Nat.lt_succ_iff_lt_or_eq.mp hj with hj | hj
        · exact hreach j hj
        · subst hj
          intro hb
          exact hb.1 hskips
      have hnoc : ¬ isNatCandidate size seg remaining box ind :=
        fun hc => hc.2.2.1 hskips
      obtain ⟨ih1, ih2⟩ := ih (ind + 1) acc hdrop2 hreach2 c hcN
      have hiff : (∃ i, ind ≤ i ∧ isNatCandidate size seg remaining box i ∧
          segChar seg i = c) ↔
          (∃ i, ind + 1 ≤ i ∧ isNatCandidate size seg remaining box i ∧
            segChar seg i = c) := by
        constructor
        · rintro ⟨i, hle, hcand, hchr⟩
          rcases Nat.eq_or_lt_of_le hle with hle2 | hle2
          · exact absurd (hle2 ▸ hcand) hnoc
          · exact ⟨i, hle2, hcand, hchr⟩
        · rintro ⟨i, hle, hcand, hchr⟩
          exact ⟨i, by omega, hcand, hchr⟩
      constructor
      · intro hex
        obtain ⟨i, hle, hcand, hchr, hlook, hmax⟩ := ih1 (hiff.mp hex)
        exact ⟨i, by omega, hcand, hchr, hlook, hmax⟩
      · intro hnex
        exact ih2 (fun hex => hnex (hiff.mpr hex))
    · rw [if_neg hskip]
      have hnskips : ¬ scanSkips seg remaining box ind := by
        unfold scanSkips
        rw [hchar]
        exact hskip
      have hcut : (if ch ∈ SPLIT_CHARS_AFTER then ind + 1 else ind) =
          splitCutIndex seg ind := by
        unfold splitCutIndex
        rw [hchar]
      by_cases hw : ((size (seg.take (if ch ∈ SPLIT_CHARS_AFTER then ind + 1
          else ind))).1 : Int) ≤ remaining
      · rw [if_pos hw]
        have hwcut : ((size (seg.take (splitCutIndex seg ind))).1 : Int) ≤
            remaining := by
          rw [← hcut]
          exact hw
        have hnb : ¬ scanBreaks size seg remaining box ind :=
          fun hb => absurd hb.2 (not_lt.mpr hwcut)
        have hreach2 : scanReaches size seg remaining box (ind + 1) := by
          intro j hj
          rcases Nat.lt_succ_iff_lt_or_eq.mp hj with hj | hj
          · exact hreach j hj
          · subst hj
            exact hnb
        by_cases hrec : ch ∈ SPLIT_CHARS_ALL ∧ ch ≠ 'N'
        · rw [if_pos hrec]
          have hcand0 : isNatCandidate size seg remaining box ind :=
            ⟨hlt, hreach, hnskips, hwcut, by rw [hchar]; exact hrec.1,
              by rw [hchar]; exact hrec.2⟩
          obtain ⟨ih1, ih2⟩ := ih (ind + 1)
            (aset acc ch
              (seg.take (if ch ∈ SPLIT_CHARS_AFTER then ind + 1 else ind),
                seg.drop (if ch ∈ SPLIT_CHARS_AFTER then ind + 1 else ind)))
            hdrop2 hreach2 c hcN
          by_cases hex2 : ∃ i, ind + 1 ≤ i ∧
              isNatCandidate size seg remaining box i ∧ segChar seg i = c
          · obtain ⟨i, hle, hcand, hchr, hlook, hmax⟩ := ih1 hex2
            refine ⟨fun _ => ⟨i, by omega, hcand, hchr, hlook, hmax⟩,
              fun hnex => absurd ⟨i, by omega, hcand, hchr⟩ hnex⟩
          · have hlook2 := ih2 hex2
            by_cases hcc : ch = c
            · subst hcc
              refine ⟨fun _ => ⟨ind, le_rfl, hcand0, hchar, ?_, ?_⟩,
                fun hnex => absurd ⟨ind, le_rfl, hcand0, hchar⟩ hnex⟩
              · rw [hlook2, alookup_aset, if_pos rfl, hcut]
              · intro j hcj hchj
                by_contra hjgt
                push_neg at hjgt
                exact hex2 ⟨j, by omega, hcj, hchj⟩
            · have hnex3 : ¬ ∃ i, ind ≤ i ∧
                  isNatCandidate size seg remaining box i ∧ segChar seg i = c := by
                rintro ⟨i, hle, hcand, hchr⟩
                rcases Nat.eq_or_lt_of_le hle with hle2 | hle2
                · exact hcc ((hle2 ▸ hchar).symm.trans (hle2 ▸ hchr))
                · exact hex2 ⟨i, hle2, hcand, hchr⟩
              refine ⟨fun hex => absurd hex hnex3, fun _ => ?_⟩
              rw [hlook2, alookup_aset, if_neg hcc]
        · rw [if_neg hrec]
          have hnoc : ¬ isNatCandidate size seg remaining box ind := by
            intro hc
            exact hrec ⟨by rw [← hchar]; exact hc.2.2.2.2.1,
              by rw [← hchar]; exact hc.2.2.2.2.2⟩
          obtain ⟨ih1, ih2⟩ := ih (ind + 1) acc hdrop2 hreach2 c hcN
          have hiff : (∃ i, ind ≤ i ∧ isNatCandidate size seg remaining box i ∧
              segChar seg i = c) ↔
              (∃ i, ind + 1 ≤ i ∧ isNatCandidate size seg remaining box i ∧
                segChar seg i = c) := by
            constructor
            · rintro ⟨i, hle, hcand, hchr⟩
              rcases Nat.eq_or_lt_of_le hle with hle2 | hle2
              · exact absurd (hle2 ▸ hcand) hnoc
              · exact ⟨i, hle2, hcand, hchr⟩
            · rintro ⟨i, hle, hcand, hchr⟩
              exact ⟨i, by omega, hcand, hchr⟩
          constructor
          · intro hex
            obtain ⟨i, hle, hcand, hchr, hlook, hmax⟩ := ih1 (hiff.mp hex)
            exact ⟨i, by omega, hcand, hchr, hlook, hmax⟩
          · intro hnex
            exact ih2 (fun hex => hnex (hiff.mpr hex))
      · rw [if_neg hw]
        have hb : scanBreaks size seg remaining box ind := by
          refine ⟨hnskips, ?_⟩
          rw [← hcut]
          exact lt_of_not_le hw
        have hnex : ¬ ∃ i, ind ≤ i ∧ isNatCandidate size seg remaining box i ∧
            segChar seg i = c := by
          rintro ⟨i, hle, hcand, -⟩
          rcases Nat.eq_or_lt_of_le hle with hle2 | hle2
          · subst hle2
            exact absurd hcand.2.2.2.1 (not_le.mpr hb.2)
          · exact hcand.2.1 ind hle2 hb
        exact ⟨fun hex => absurd hex hnex, fun _ => rfl⟩

/-- The `possible_split_points` binds each non-boundary split character to
its latest candidate occurrence, and holds no binding for characters with
no candidate occurrence. -/
theorem splitPoints_lookup_latest (size : Str → Nat × Nat) (seg : Str)
    (remaining : Int) (box : Nat) (c : Char) (hcN : c ≠ 'N') :
    ((∃ i, isNatCandidate size seg remaining box i ∧ segChar seg i = c) →
      ∃ i, isNatCandidate size seg remaining box i ∧ segChar seg i = c ∧
        alookup (Text.splitPoints size seg remaining box) c =
          some (seg.take (splitCutIndex seg i),
            seg.drop (splitCutIndex seg i)) ∧
        (∀ j, isNatCandidate size seg remaining box j → segChar seg j = c →
          j ≤ i)) ∧
    ((¬ ∃ i, isNatCandidate size seg remaining box i ∧ segChar seg i = c) →
      alookup (Text.splitPoints size seg remaining box) c = none) := by
  have hmain := splitScanGo_lookup_latest size seg remaining box seg 0
    (if remaining < (box : Int) ∧ 'N' ∈ SPLIT_CHARS_ALL
      then [('N', (([] : Str), seg))] else [])
    rfl (fun j hj => absurd hj (Nat.not_lt_zero j)) c hcN
  have hinit : alookup
      (if remaining < (box : Int) ∧ 'N' ∈ SPLIT_CHARS_ALL
        then [('N', (([] : Str), seg))] else []) c = none := by
    split
    · unfold alookup
      rw [if_neg (fun hh => hcN hh.symm)]
      rfl
    · rfl
  constructor
  · rintro ⟨i, hcand, hchr⟩
    obtain ⟨j, -, hcand2, hchr2, hlook, hmax⟩ :=
      hmain.1 ⟨i, Nat.zero_le i, hcand, hchr⟩
    exact ⟨j, hcand2, hchr2, hlook, hmax⟩
  · intro hnex
    have := hmain.2 (by rintro ⟨i, -, hcand, hchr⟩; exact hnex ⟨i, hcand, hchr⟩)
    rw [Text.splitPoints, this, hinit]

/-- Every non-boundary entry of `SPLIT_CHARS_ALL` precedes the boundary
marker `N` (which is its last element). -/
theorem indexOf_lt_N : ∀ c ∈ SPLIT_CHARS_ALL, c ≠ 'N' →
    SPLIT_CHARS_ALL.indexOf c < SPLIT_CHARS_ALL.indexOf 'N' := by decide

/-- C3: when at least one natural split candidate fits, `Text.split`
returns the cut of a candidate occurrence whose character has the
minimal precedence index in `SPLIT_CHARS_ALL` over all candidates (a
fixed total order: split-after characters, then split-before characters,
then the whole-fragment boundary `N`, which is never chosen when a
character candidate exists), and among occurrences of that character the
latest one in the scan; in particular `"aaa(bbbbb)"` against a
four-character monospace fresh line splits as
`("aaa", "(bbbbb)")`. -/
theorem C3_split_precedence (size : Str → Nat × Nat) (seg : Str)
    (remaining : Int) (box : Nat)
    (h : ∃ i, isNatCandidate size seg remaining box i) :
    (∃ c i, isNatCandidate size seg remaining box i ∧ segChar seg i = c ∧
      Text.split size seg remaining box =
        (seg.take (splitCutIndex seg i), seg.drop (splitCutIndex seg i)) ∧
      (∀ j, isNatCandidate size seg remaining box j →
        SPLIT_CHARS_ALL.indexOf c ≤
          SPLIT_CHARS_ALL.indexOf (segChar seg j)) ∧
      SPLIT_CHARS_ALL.indexOf c < SPLIT_CHARS_ALL.indexOf 'N' ∧
      (∀ j, isNatCandidate size seg remaining box j → segChar seg j = c →
        j ≤ i)) ∧
    Text.split (monoSize 1 1) ("aaa(bbbbb)".toList) 4 4 =
      ("aaa".toList, "(bbbbb)".toList) := by
  refine ⟨?_, by decide⟩
  obtain ⟨i0, hc0⟩ := h
  have hc0N : segChar seg i0 ≠ 'N' := hc0.2.2.2.2.2
  have hc0ALL : segChar seg i0 ∈ SPLIT_CHARS_ALL := hc0.2.2.2.2.1
  have hlat0 := splitPoints_lookup_latest size seg remaining box
    (segChar seg i0) hc0N
  obtain ⟨iA, hcA, hchA, hlookA, hmaxA⟩ := hlat0.1 ⟨i0, hc0, rfl⟩
  have hpred0 : ((alookup (Text.splitPoints size seg remaining box)
      (segChar seg i0)).isSome) = true := by
    rw [hlookA]
    rfl
  obtain ⟨cstar, hf⟩ : ∃ cstar, SPLIT_CHARS_ALL.find?
      (fun c => (alookup (Text.splitPoints size seg remaining box) c).isSome) =
      some cstar := by
    cases hff : SPLIT_CHARS_ALL.find?
        (fun c => (alookup (Text.splitPoints size seg remaining box) c).isSome)
      with
    | none =>
      exact absurd hpred0 (by simpa using List.find?_eq_none.mp hff _ hc0ALL)
    | some cstar => exact ⟨cstar, rfl⟩
  obtain ⟨hpstar, hmin⟩ := find?_min_indexOf _ _ _ hf
  have hidx0 : SPLIT_CHARS_ALL.indexOf (segChar seg i0) <
      SPLIT_CHARS_ALL.indexOf 'N' := indexOf_lt_N _ hc0ALL hc0N
  have hle0 : SPLIT_CHARS_ALL.indexOf cstar ≤
      SPLIT_CHARS_ALL.indexOf (segChar seg i0) :=
    hmin _ hc0ALL hpred0
  have hstarN : cstar ≠ 'N' := by
    intro hh
    rw [hh] at hle0
    omega
  have hlatS := splitPoints_lookup_latest size seg remaining box cstar hstarN
  have hexS : ∃ i, isNatCandidate size seg remaining box i ∧
      segChar seg i = cstar := by
    by_contra hnex
    have := hlatS.2 hnex
    rw [this] at hpstar
    cases hpstar
  obtain ⟨iS, hcS, hchS, hlookS, hmaxS⟩ := hlatS.1 hexS
  refine ⟨cstar, iS, hcS, hchS, ?_, ?_, lt_of_le_of_lt hle0 hidx0, hmaxS⟩
  · simp only [Text.split]
    rw [hf]
    dsimp only
    rw [hlookS]
    rfl
  · intro j hcj
    have hchJ : segChar seg j ∈ SPLIT_CHARS_ALL := hcj.2.2.2.2.1
    have hcjN : segChar seg j ≠ 'N' := hcj.2.2.2.2.2
    have hlatJ := splitPoints_lookup_latest size seg remaining box
      (segChar seg j) hcjN
    obtain ⟨iJ, -, -, hlookJ, -⟩ := hlatJ.1 ⟨j, hcj, rfl⟩
    refine hmin _ hchJ ?_
    rw [hlookJ]
    rfl

/-- Witness for `C3_split_precedence`: the bracket scenario, with the
candidate at index 3 (the `(` of `"aaa(bbbbb)"`) discharging the
hypothesis. -/
theorem C3_split_precedence_witness :
    Text.split (monoSize 1 1) ("aaa(bbbbb)".toList) 4 4 =
      ("aaa".toList, "(bbbbb)".toList) :=
  (C3_split_precedence (monoSize 1 1) ("aaa(bbbbb)".toList) 4 4
    ⟨3, by decide⟩).2

/-- Fuel 2 computes `scroll_lines`' recursion exactly: the nested
self-call never recurses again (its recursion guard is always false), so
every larger fuel gives the same result. -/
theorem scrollLinesGo_fuel (k : Nat) (s : WrapState) (n : Int) :
    WrapState.scrollLinesGo (k + 2) s n = s.scrollLines n := by
  unfold WrapState.scrollLines
  simp only [WrapState.scrollLinesGo]
  split
  next hc =>
    congr 1
    split
    next hc2 =>
      exfalso
      obtain ⟨h1, hne⟩ := hc
      have hlen : 0 < s.lines.length := List.length_pos.mpr hne
      obtain ⟨h2, -⟩ := hc2
      omega
    next => rfl
  next => rfl

end Hysteresis


